import Mathlib

/-!
# Verification of the itslab-server video pipeline and streaming gateway

A shallow embedding, in Lean 4, of the video-processing and streaming core of
the `itslab-server` repository:

* the per-request authorization policy of the three protected streaming
  endpoints (`streamLessonVideo`, `getLessonVideoKey`, `streamHLSSegment` in
  `src/controllers/courseController.js`);
* the M3U8 manifest patching performed on every manifest GET
  (`courseController.js`, `streamLessonVideo`);
* the byte-range progressive streaming branch of `streamLessonVideo`;
* the transcode pipeline `processToHLS` and key lookup `getLessonKey`
  (`services/video_service.js`);
* the queue configuration and job enqueue helper (`services/queue_service.js`)
  and the worker job handler (`workers/video_worker.js`);
* the segment path resolution of `streamHLSSegment`.

Strings from the JavaScript side are modelled as `List Char` where character
level reasoning is needed, and as Lean `String` elsewhere.  File systems are
modelled as association lists from paths to byte contents.  Machine integers
of the JavaScript side are modelled as `Int`/`Nat` (the quantities involved are
file sizes and counts, far from any floating point precision boundary).
-/

namespace ItsLab

/-! ## Authorization policy of the protected streaming endpoints

`src/routes/courses.js` wires all three endpoints through `optionalAuth`, so
`req.user` is an `Option`.  Each controller recomputes the same gate from
scratch; we embed the three copies separately, one per endpoint, exactly as
they appear in `courseController.js`. -/

structure User where
  id : Nat
  role : String
  deriving DecidableEq, Repr

inductive AuthOutcome
  /-- the request proceeds past the authorization gate -/
  | ok
  /-- `errorResponse(res, 401, ...)` -/
  | unauthenticated
  /-- `errorResponse(res, 403, ...)` -/
  | forbidden
  deriving DecidableEq, Repr

/-- The authorization gate of `streamLessonVideo` (courseController.js:290-307).
`enrollmentCompleted uid` models
`Enrollment.findOne({where: {user_id: uid, course_id, payment_status: 'completed'}})`
returning a row for the asset's owning course. -/
def streamLessonVideoCheck (user : Option User) (is_preview : Bool)
    (enrollmentCompleted : Nat → Bool) : AuthOutcome :=
  let isGuest := user.isNone
  let isAdmin := match user with
    | some u => u.role == "admin"
    | none => false
  if !isAdmin && !is_preview then
    if isGuest then .unauthenticated
    else
      match user with
      | some u => if enrollmentCompleted u.id then .ok else .forbidden
      | none => .unauthenticated
  else .ok

/-- The authorization gate of `getLessonVideoKey` (courseController.js:428-438).
The controller uses `Enrollment.count` instead of `Enrollment.findOne`; both
reduce to the same boolean "a completed enrollment row exists". -/
def getLessonVideoKeyCheck (user : Option User) (is_preview : Bool)
    (enrollmentCompleted : Nat → Bool) : AuthOutcome :=
  let isGuest := user.isNone
  let isAdmin := match user with
    | some u => u.role == "admin"
    | none => false
  if !isAdmin && !is_preview then
    if isGuest then .unauthenticated
    else
      match user with
      | some u => if enrollmentCompleted u.id then .ok else .forbidden
      | none => .unauthenticated
  else .ok

/-- The authorization gate of `streamHLSSegment` (courseController.js:474-484). -/
def streamHLSSegmentCheck (user : Option User) (is_preview : Bool)
    (enrollmentCompleted : Nat → Bool) : AuthOutcome :=
  let isGuest := user.isNone
  let isAdmin := match user with
    | some u => u.role == "admin"
    | none => false
  if !isAdmin && !is_preview then
    if isGuest then .unauthenticated
    else
      match user with
      | some u => if enrollmentCompleted u.id then .ok else .forbidden
      | none => .unauthenticated
  else .ok

end ItsLab

namespace ItsLab

/-- C1.  For every request to the manifest, key, or segment endpoint: an admin
is never rejected for authorization reasons; a preview asset is served with no
enrollment check for any requester; otherwise an anonymous request is rejected
with the unauthenticated (401) outcome and an authenticated request without a
completed enrollment is rejected with the forbidden (403) outcome.  The gate is
recomputed by each of the three endpoint handlers. -/
theorem video_endpoints_authorization
    (f : Option User → Bool → (Nat → Bool) → AuthOutcome)
    (hf : f = streamLessonVideoCheck ∨ f = getLessonVideoKeyCheck ∨
          f = streamHLSSegmentCheck)
    (user : Option User) (is_preview : Bool) (enrolled : Nat → Bool) :
    ((∃ u, user = some u ∧ u.role = "admin") →
        f user is_preview enrolled = .ok) ∧
    (is_preview = true → f user is_preview enrolled = .ok) ∧
    (user = none → is_preview = false →
        f user is_preview enrolled = .unauthenticated) ∧
    (∀ u, user = some u → u.role ≠ "admin" → is_preview = false →
        enrolled u.id = false → f user is_preview enrolled = .forbidden) ∧
    (∀ u, user = some u → is_preview = false →
        enrolled u.id = true → f user is_preview enrolled = .ok) := by
  have main : ∀ (g : Option User → Bool → (Nat → Bool) → AuthOutcome),
      g = streamLessonVideoCheck →
      ((∃ u, user = some u ∧ u.role = "admin") →
          g user is_preview enrolled = .ok) ∧
      (is_preview = true → g user is_preview enrolled = .ok) ∧
      (user = none → is_preview = false →
          g user is_preview enrolled = .unauthenticated) ∧
      (∀ u, user = some u → u.role ≠ "admin" → is_preview = false →
          enrolled u.id = false → g user is_preview enrolled = .forbidden) ∧
      (∀ u, user = some u → is_preview = false →
          enrolled u.id = true → g user is_preview enrolled = .ok) := by
    rintro g rfl
    refine ⟨?_, ?_, ?_, ?_, ?_⟩
    · rintro ⟨u, rfl, hadmin⟩
      simp [streamLessonVideoCheck, hadmin]
    · rintro rfl
      cases user <;> simp [streamLessonVideoCheck]
    · rintro rfl rfl
      simp [streamLessonVideoCheck, Option.isNone]
    · rintro u rfl hrole rfl hnotenr
      have : (u.role == "admin") = false := by
        simpa using hrole
      simp [streamLessonVideoCheck, this, hnotenr, Option.isNone]
    · rintro u rfl hprev henr
      subst hprev
      by_cases hadmin : u.role = "admin"
      · simp [streamLessonVideoCheck, hadmin]
      · have : (u.role == "admin") = false := by simpa using hadmin
        simp [streamLessonVideoCheck, this, henr, Option.isNone]
  have same_key : getLessonVideoKeyCheck = streamLessonVideoCheck := rfl
  have same_seg : streamHLSSegmentCheck = streamLessonVideoCheck := rfl
  rcases hf with rfl | rfl | rfl
  · exact main _ rfl
  · exact main _ same_key
  · exact main _ same_seg

/-- Witness for `video_endpoints_authorization` at concrete inputs: on the
segment endpoint, an anonymous request for a non-preview asset is rejected as
unauthenticated, and an authenticated non-admin without a completed enrollment
is rejected as forbidden. -/
theorem video_endpoints_authorization_witness :
    streamHLSSegmentCheck none false (fun _ => false) = .unauthenticated ∧
    streamHLSSegmentCheck (some ⟨7, "student"⟩) false (fun _ => false) =
      .forbidden := by
  constructor
  · exact (video_endpoints_authorization streamHLSSegmentCheck
      (Or.inr (Or.inr rfl)) none false (fun _ => false)).2.2.1 rfl rfl
  · exact (video_endpoints_authorization streamHLSSegmentCheck
      (Or.inr (Or.inr rfl)) (some ⟨7, "student"⟩) false
      (fun _ => false)).2.2.2.1 ⟨7, "student"⟩ rfl (by decide) rfl rfl

end ItsLab

namespace ItsLab

/-! ## File-system model

`services/video_service.js` works on the local disk under
`public/uploads/videos`.  We model the relevant slice of the file system as an
association list from path to byte content (`List Nat`, one entry per byte).
`writeFile` models `fs.writeFileSync` (create or overwrite), `removeFile`
models `fs.unlinkSync` guarded by `fs.existsSync`, `lookupFile` models
`fs.existsSync`/`fs.readFileSync`. -/

abbrev FileSys := List (String × List Nat)

def lookupFile : FileSys → String → Option (List Nat)
  | [], _ => none
  | e :: fs, p => if e.1 = p then some e.2 else lookupFile fs p

def removeFile : FileSys → String → FileSys
  | [], _ => []
  | e :: fs, p => if e.1 = p then removeFile fs p else e :: removeFile fs p

def writeFile (fs : FileSys) (p : String) (content : List Nat) : FileSys :=
  (p, content) :: removeFile fs p

theorem lookupFile_writeFile_self (fs : FileSys) (p : String) (c : List Nat) :
    lookupFile (writeFile fs p c) p = some c := by
  simp [writeFile, lookupFile]

theorem lookupFile_removeFile_self (fs : FileSys) (p : String) :
    lookupFile (removeFile fs p) p = none := by
  induction fs with
  | nil => rfl
  | cons e fs ih =>
      by_cases h : e.1 = p
      · simpa [removeFile, h] using ih
      · simpa [removeFile, lookupFile, h] using ih

theorem lookupFile_removeFile_other (fs : FileSys) (p q : String) (h : q ≠ p) :
    lookupFile (removeFile fs p) q = lookupFile fs q := by
  induction fs with
  | nil => rfl
  | cons e fs ih =>
      by_cases he : e.1 = p
      · have hpq : p ≠ q := Ne.symm h
        simp [removeFile, lookupFile, he, hpq, ih]
      · by_cases heq : e.1 = q <;>
          simp [removeFile, lookupFile, he, heq, h, ih]

theorem lookupFile_writeFile_other (fs : FileSys) (p q : String)
    (c : List Nat) (h : q ≠ p) :
    lookupFile (writeFile fs p c) q = lookupFile fs q := by
  simp [writeFile, lookupFile, Ne.symm h, lookupFile_removeFile_other fs p q h]

/-! ## Encryption key generation and the transcode pipeline

`processToHLS` (services/video_service.js:302-364).  The entropy source
`crypto.randomBytes` is modelled by an abstract byte supply `rnd`; only the
requested length matters for the properties below. -/

/-- `crypto.randomBytes(n)` modelled over an abstract entropy supply. -/
def randomBytes (rnd : Nat → Nat) (n : Nat) : List Nat :=
  (List.range n).map rnd

theorem randomBytes_length (rnd : Nat → Nat) (n : Nat) :
    (randomBytes rnd n).length = n := by
  simp [randomBytes]

/-- `path.join(process.cwd(), 'public/uploads/videos')`, relative to cwd. -/
def videosDir : String := "public/uploads/videos"

structure HLSRun where
  /-- resolved relative playlist path, or the propagated encoder error -/
  result : Except String String
  fs : FileSys

/-- The transcode pipeline `processToHLS(inputPath, lessonId)`.

The external encoder invocation is abstracted by `encoderOk` (did ffmpeg fire
`end` rather than `error`), `encoderErr` (the error message in the `error`
case) and `encoderOutputs` (the playlist/segment files written by ffmpeg into
the output folder in the `end` case).  Mirroring the source: the AES-128 key
is generated and written before encoding; the key-info descriptor is written
next; on `end` the key-info descriptor is deleted, then the original input
file is deleted, and the promise resolves to the playlist's relative URL; on
`error` the promise rejects with the encoder error and performs no cleanup. -/
def processToHLS (fs0 : FileSys) (inputPath lessonId : String)
    (rnd : Nat → Nat) (encoderOk : Bool) (encoderErr : String)
    (encoderOutputs : List (String × List Nat)) : HLSRun :=
  let outputFolder := videosDir ++ "/" ++ lessonId
  let keyPath := outputFolder ++ "/enc.key"
  let keyInfoPath := outputFolder ++ "/enc.keyinfo"
  let key := randomBytes rnd 16
  let iv := randomBytes rnd 16
  let fs1 := writeFile fs0 keyPath key
  let keyInfoContent := iv
  let fs2 := writeFile fs1 keyInfoPath keyInfoContent
  if encoderOk then
    let fs3 := encoderOutputs.foldl (fun a e => writeFile a e.1 e.2) fs2
    let fs4 := removeFile fs3 keyInfoPath
    let fs5 := removeFile fs4 inputPath
    { result := .ok ("/uploads/videos/" ++ lessonId ++ "/playlist.m3u8"),
      fs := fs5 }
  else
    { result := .error encoderErr, fs := fs2 }

end ItsLab

namespace ItsLab

theorem processToHLS_success_fs (fs0 : FileSys) (inputPath lessonId : String)
    (rnd : Nat → Nat) (encoderErr : String)
    (encoderOutputs : List (String × List Nat)) :
    (processToHLS fs0 inputPath lessonId rnd true encoderErr
        encoderOutputs).fs =
      removeFile (removeFile
        (encoderOutputs.foldl (fun a e => writeFile a e.1 e.2)
          (writeFile
            (writeFile fs0 (videosDir ++ "/" ++ lessonId ++ "/enc.key")
              (randomBytes rnd 16))
            (videosDir ++ "/" ++ lessonId ++ "/enc.keyinfo")
            (randomBytes rnd 16)))
        (videosDir ++ "/" ++ lessonId ++ "/enc.keyinfo")) inputPath := rfl

theorem processToHLS_failure_fs (fs0 : FileSys) (inputPath lessonId : String)
    (rnd : Nat → Nat) (encoderErr : String)
    (encoderOutputs : List (String × List Nat)) :
    (processToHLS fs0 inputPath lessonId rnd false encoderErr
        encoderOutputs).fs =
      writeFile
        (writeFile fs0 (videosDir ++ "/" ++ lessonId ++ "/enc.key")
          (randomBytes rnd 16))
        (videosDir ++ "/" ++ lessonId ++ "/enc.keyinfo")
        (randomBytes rnd 16) := rfl

theorem lookupFile_foldl_writeFile_other (outs : List (String × List Nat))
    (fs : FileSys) (q : String) (h : ∀ e ∈ outs, e.1 ≠ q) :
    lookupFile (outs.foldl (fun a e => writeFile a e.1 e.2) fs) q =
      lookupFile fs q := by
  induction outs generalizing fs with
  | nil => rfl
  | cons e outs ih =>
      have hne : q ≠ e.1 := fun hq => h e (by simp) hq.symm
      rw [List.foldl_cons, ih _ (fun x hx => h x (by simp [hx])),
        lookupFile_writeFile_other _ _ _ _ hne]

/-- C7.  On encoder success the key-info descriptor and the original raw input
file are both absent from the resulting file system and the pipeline resolves
to the manifest's relative path; on encoder failure the error is propagated
and the raw input file is untouched (assuming, as in the source layout, that
the raw input is not one of the pipeline's own key/key-info paths). -/
theorem processToHLS_cleanup_contract (fs0 : FileSys)
    (inputPath lessonId : String) (rnd : Nat → Nat) (encoderErr : String)
    (encoderOutputs : List (String × List Nat))
    (hkey : inputPath ≠ videosDir ++ "/" ++ lessonId ++ "/enc.key")
    (hinfo : inputPath ≠ videosDir ++ "/" ++ lessonId ++ "/enc.keyinfo") :
    ((processToHLS fs0 inputPath lessonId rnd true encoderErr
        encoderOutputs).result =
      .ok ("/uploads/videos/" ++ lessonId ++ "/playlist.m3u8")) ∧
    (lookupFile (processToHLS fs0 inputPath lessonId rnd true encoderErr
        encoderOutputs).fs
      (videosDir ++ "/" ++ lessonId ++ "/enc.keyinfo") = none) ∧
    (lookupFile (processToHLS fs0 inputPath lessonId rnd true encoderErr
        encoderOutputs).fs inputPath = none) ∧
    ((processToHLS fs0 inputPath lessonId rnd false encoderErr
        encoderOutputs).result = .error encoderErr) ∧
    (lookupFile (processToHLS fs0 inputPath lessonId rnd false encoderErr
        encoderOutputs).fs inputPath = lookupFile fs0 inputPath) := by
  refine ⟨rfl, ?_, ?_, rfl, ?_⟩
  · rw [processToHLS_success_fs,
      lookupFile_removeFile_other _ _ _ (Ne.symm hinfo),
      lookupFile_removeFile_self]
  · rw [processToHLS_success_fs]
    exact lookupFile_removeFile_self _ _
  · rw [processToHLS_failure_fs,
      lookupFile_writeFile_other _ _ _ _ hinfo,
      lookupFile_writeFile_other _ _ _ _ hkey]

/-- Witness for `processToHLS_cleanup_contract` at a concrete input: the
scenario of §8 of the spec, lesson `L1` with raw input `/tmp/raw.mp4`. -/
theorem processToHLS_cleanup_contract_witness :
    ((processToHLS [("/tmp/raw.mp4", [1, 2, 3])] "/tmp/raw.mp4" "L1"
        (fun _ => 0) true "boom" [("public/uploads/videos/L1/playlist.m3u8",
        [35])]).result = .ok "/uploads/videos/L1/playlist.m3u8") ∧
    (lookupFile (processToHLS [("/tmp/raw.mp4", [1, 2, 3])] "/tmp/raw.mp4"
        "L1" (fun _ => 0) true "boom"
        [("public/uploads/videos/L1/playlist.m3u8", [35])]).fs
      "/tmp/raw.mp4" = none) := by
  have h := processToHLS_cleanup_contract [("/tmp/raw.mp4", [1, 2, 3])]
    "/tmp/raw.mp4" "L1" (fun _ => 0) "boom"
    [("public/uploads/videos/L1/playlist.m3u8", [35])]
    (by decide) (by decide)
  exact ⟨by simpa using h.1, h.2.2.1⟩

/-! ## Key endpoint (`getLessonVideoKey`, courseController.js:440-450) -/

/-- `getLessonKey(lessonId)` (services/video_service.js:371-377). -/
def getLessonKey (fs : FileSys) (lessonId : String) : Option (List Nat) :=
  lookupFile fs (videosDir ++ "/" ++ lessonId ++ "/enc.key")

structure KeyResponse where
  status : Nat
  contentType : Option String
  cacheControl : Option String
  pragmaHeader : Option String
  expiresHeader : Option String
  body : List Nat
  deriving DecidableEq, Repr

/-- The response-building tail of `getLessonVideoKey` (after the authorization
gate): 404 when the key file is absent, otherwise the raw key bytes with
caching disabled. -/
def getLessonVideoKeyResponse (fs : FileSys) (lessonId : String) :
    KeyResponse :=
  match getLessonKey fs lessonId with
  | none =>
      { status := 404, contentType := none, cacheControl := none,
        pragmaHeader := none, expiresHeader := none, body := [] }
  | some key =>
      { status := 200, contentType := some "application/octet-stream",
        cacheControl := some "no-store, no-cache, must-revalidate, proxy-revalidate",
        pragmaHeader := some "no-cache", expiresHeader := some "0",
        body := key }

/-- C8.  For a ready asset — one whose key file was produced by a successful
`processToHLS` run (and not clobbered by the encoder's own outputs) — the key
endpoint returns exactly the 16 random bytes generated at transcode time, with
caching fully disabled; when the key file is absent it returns 404. -/
theorem key_endpoint_sixteen_bytes (fs0 : FileSys)
    (inputPath lessonId : String) (rnd : Nat → Nat) (encoderErr : String)
    (encoderOutputs : List (String × List Nat)) (fsMissing : FileSys)
    (houts : ∀ e ∈ encoderOutputs,
      e.1 ≠ videosDir ++ "/" ++ lessonId ++ "/enc.key")
    (hinput : inputPath ≠ videosDir ++ "/" ++ lessonId ++ "/enc.key")
    (hinfo : videosDir ++ "/" ++ lessonId ++ "/enc.keyinfo" ≠
      videosDir ++ "/" ++ lessonId ++ "/enc.key")
    (hmiss : getLessonKey fsMissing lessonId = none) :
    (let resp := getLessonVideoKeyResponse
        (processToHLS fs0 inputPath lessonId rnd true encoderErr
          encoderOutputs).fs lessonId
     resp.status = 200 ∧ resp.body.length = 16 ∧
       resp.cacheControl =
         some "no-store, no-cache, must-revalidate, proxy-revalidate" ∧
       resp.pragmaHeader = some "no-cache" ∧ resp.expiresHeader = some "0") ∧
    (getLessonVideoKeyResponse fsMissing lessonId).status = 404 := by
  have hkeyfile : getLessonKey
      (processToHLS fs0 inputPath lessonId rnd true encoderErr
        encoderOutputs).fs lessonId = some (randomBytes rnd 16) := by
    rw [getLessonKey, processToHLS_success_fs,
      lookupFile_removeFile_other _ _ _ (Ne.symm hinput),
      lookupFile_removeFile_other _ _ _ (Ne.symm hinfo),
      lookupFile_foldl_writeFile_other _ _ _ houts,
      lookupFile_writeFile_other _ _ _ _ (Ne.symm hinfo),
      lookupFile_writeFile_self]
  constructor
  · simp [getLessonVideoKeyResponse, hkeyfile, randomBytes_length]
  · simp [getLessonVideoKeyResponse, hmiss]

/-- Witness for `key_endpoint_sixteen_bytes` at a concrete input. -/
theorem key_endpoint_sixteen_bytes_witness :
    ((getLessonVideoKeyResponse
        (processToHLS [] "/tmp/raw.mp4" "L1" (fun i => i + 1) true "boom"
          []).fs "L1").body.length = 16) ∧
    (getLessonVideoKeyResponse [] "L1").status = 404 := by
  have h := key_endpoint_sixteen_bytes [] "/tmp/raw.mp4" "L1"
    (fun i => i + 1) "boom" [] [] (by intro e he; cases he)
    (by decide) (by decide) rfl
  exact ⟨h.1.2.1, h.2⟩

end ItsLab

namespace ItsLab

/-! ## Lesson records, queue configuration, worker

`models/Lesson.js` declares `video_processing_status` (enum
`pending/processing/ready/failed`, Sequelize default `'ready'`) and
`video_processing_error` (nullable text).  `controllers/instructorController.js`
(`addLesson`) creates video lessons without passing either field, so the
defaults apply.  `workers/video_worker.js` updates only `video_url` on success
and rethrows on failure; `services/queue_service.js` configures the queue with
3 attempts and exponential backoff starting at 1000 ms. -/

structure Lesson where
  video_url : Option String
  video_processing_status : String
  video_processing_error : Option String
  deriving DecidableEq, Repr

/-- The `Lesson.create` call of `addLesson` for a video lesson: `video_url` is
set to the interim MP4 path; `video_processing_status` and
`video_processing_error` are not passed, so the model defaults
(`'ready'`, `null`) apply. -/
def createdVideoLesson (interimUrl : String) : Lesson :=
  { video_url := some interimUrl,
    video_processing_status := "ready",
    video_processing_error := none }

/-- `defaultJobOptions.attempts` of the `video-processing` queue
(queue_service.js:38). -/
def videoQueueAttempts : Nat := 3

/-- `defaultJobOptions.backoff` (queue_service.js:39-42): exponential starting
at 1000 ms, so the delay before redelivery `n` (counting from 0) is
`1000 * 2 ^ n` milliseconds. -/
def videoQueueBackoffMs (n : Nat) : Nat := 1000 * 2 ^ n

/-- The job handler of `videoWorker` (video_worker.js:104-126): on a
successful `processToHLS` it updates only the lesson's `video_url`; on failure
it rethrows so that BullMQ's retry logic governs redelivery.  No branch writes
`video_processing_status` or `video_processing_error`. -/
def videoWorkerHandler (processOutcome : Except String String) (l : Lesson) :
    Except String Lesson :=
  match processOutcome with
  | .ok hlsUrl => .ok { l with video_url := some hlsUrl }
  | .error e => .error e

/-- BullMQ delivery of one job: the handler is invoked once per delivery
attempt (`attemptOutcomes` lists the `processToHLS` outcome of each attempt,
so `attemptOutcomes.length` is the configured attempt ceiling); the first
successful attempt ends the job, and after the last failed attempt the job is
left failed with that error.  Returns the final lesson record and the job's
terminal outcome. -/
def deliverVideoJob : List (Except String String) → Lesson →
    Lesson × Except String Lesson
  | [], l => (l, .error "no delivery attempts")
  | [r], l =>
      match videoWorkerHandler r l with
      | .ok l' => (l', .ok l')
      | .error e => (l, .error e)
  | r :: r₂ :: rest, l =>
      match videoWorkerHandler r l with
      | .ok l' => (l', .ok l')
      | .error _ => deliverVideoJob (r₂ :: rest) l

/-- The worker never writes the processing-status columns: whatever the
delivery attempts do, the lesson's `video_processing_status` and
`video_processing_error` are exactly what they were when the lesson row was
created. -/
theorem deliverVideoJob_status_constant (rs : List (Except String String))
    (l : Lesson) :
    ((deliverVideoJob rs l).1.video_processing_status =
        l.video_processing_status) ∧
    ((deliverVideoJob rs l).1.video_processing_error =
        l.video_processing_error) := by
  induction rs generalizing l with
  | nil => exact ⟨rfl, rfl⟩
  | cons r rest ih =>
      cases rest with
      | nil =>
          cases r with
          | ok u => exact ⟨rfl, rfl⟩
          | error e => exact ⟨rfl, rfl⟩
      | cons r₂ rest' =>
          cases r with
          | ok u => exact ⟨rfl, rfl⟩
          | error e => exact ih l

/-- C2 (code bug, concrete evaluation).  A video lesson created by `addLesson`
whose `processToHLS` rejects on all `videoQueueAttempts = 3` delivery attempts:
no further attempt is made and the job terminates with the error, but the
lesson record is left with `video_processing_status = "ready"` (the creation
default) and no error message — not in the `failed` state with a non-empty
message that the specification requires. -/
theorem videoWorker_retry_exhaustion_leaves_default_status :
    (List.replicate videoQueueAttempts
        (Except.error "ffmpeg exited with code 1" :
          Except String String)).length = 3 ∧
    (deliverVideoJob
        (List.replicate videoQueueAttempts
          (Except.error "ffmpeg exited with code 1"))
        (createdVideoLesson "/uploads/videos/1758-lecture.mp4")).2 =
      .error "ffmpeg exited with code 1" ∧
    (deliverVideoJob
        (List.replicate videoQueueAttempts
          (Except.error "ffmpeg exited with code 1"))
        (createdVideoLesson
          "/uploads/videos/1758-lecture.mp4")).1.video_processing_status =
      "ready" ∧
    (deliverVideoJob
        (List.replicate videoQueueAttempts
          (Except.error "ffmpeg exited with code 1"))
        (createdVideoLesson
          "/uploads/videos/1758-lecture.mp4")).1.video_processing_error =
      none := by
  exact ⟨rfl, rfl, rfl, rfl⟩

end ItsLab

namespace ItsLab

/-! ## Enqueue failure at intake (`addVideoJob`, `addLesson`) -/

/-- `addVideoJob(lessonId, inputPath)` (queue_service.js:54-66): on transport
failure it logs the error and rethrows it (`throw error`). -/
def addVideoJob (queueAdd : Except String Nat) : Except String Nat :=
  match queueAdd with
  | .ok job => .ok job
  | .error e => .error e

inductive IntakeOutcome
  /-- `successResponse(res, 201, 'Lesson created and processing started', ...)` -/
  | created (lesson : Lesson) (processing : Bool)
  /-- the error reached the surrounding `catch` and was forwarded to
  `next(error)`, i.e. the request fails with the global error handler -/
  | errored (e : String)
  deriving DecidableEq, Repr

structure AddLessonRun where
  response : IntakeOutcome
  /-- the lesson row persisted by `Lesson.create` (it is created before the
  enqueue and is not rolled back) -/
  persisted : Option Lesson
  /-- how many times `videoQueue.add` was invoked -/
  enqueueCalls : Nat
  deriving DecidableEq, Repr

/-- The video branch of `addLesson` (instructorController.js:433-469): the
lesson row is created first with the interim MP4 URL, then
`await addVideoJob(...)` runs inside the handler's single `try`; a rejection
propagates to the `catch (error) { next(error) }` and the request errors,
while the already-created row stays. -/
def addLessonVideoBranch (queueAdd : Except String Nat)
    (interimUrl : String) : AddLessonRun :=
  let lesson := createdVideoLesson interimUrl
  match addVideoJob queueAdd with
  | .ok _ => { response := .created lesson true, persisted := some lesson,
               enqueueCalls := 1 }
  | .error e => { response := .errored e, persisted := some lesson,
                  enqueueCalls := 1 }

/-- C9 (counterexample).  When the queue transport is unreachable the intake
request does fail: with a concrete `ECONNREFUSED` enqueue failure the
request's outcome is the forwarded error, not a created (201) response — the
claim that "the intake request does not fail" is false on this code. -/
theorem enqueue_failure_fails_intake_request :
    (addLessonVideoBranch (.error "connect ECONNREFUSED 127.0.0.1:6379")
        "/uploads/videos/1758-lecture.mp4").response =
      .errored "connect ECONNREFUSED 127.0.0.1:6379" ∧
    ¬ ∃ l p, (addLessonVideoBranch
        (.error "connect ECONNREFUSED 127.0.0.1:6379")
        "/uploads/videos/1758-lecture.mp4").response = .created l p := by
  refine ⟨rfl, ?_⟩
  rintro ⟨l, p, h⟩
  simp [addLessonVideoBranch, addVideoJob] at h

/-- C9 (amended).  On enqueue failure `addVideoJob` logs and rethrows, the
triggering request errors out through the controller's `catch`/`next(error)`,
the already-created lesson row persists unchanged (interim MP4 URL, default
status, no error text), and no automatic re-enqueue happens: the queue is
invoked exactly once. -/
theorem enqueue_failure_contract (e interimUrl : String) :
    (addLessonVideoBranch (.error e) interimUrl).response = .errored e ∧
    (addLessonVideoBranch (.error e) interimUrl).persisted =
      some (createdVideoLesson interimUrl) ∧
    (addLessonVideoBranch (.error e) interimUrl).enqueueCalls = 1 := by
  exact ⟨rfl, rfl, rfl⟩

/-- Witness for `enqueue_failure_contract` at a concrete input. -/
theorem enqueue_failure_contract_witness :
    (addLessonVideoBranch (.error "connect ETIMEDOUT")
        "/uploads/videos/42-intro.mp4").persisted =
      some (createdVideoLesson "/uploads/videos/42-intro.mp4") :=
  (enqueue_failure_contract "connect ETIMEDOUT"
    "/uploads/videos/42-intro.mp4").2.1

end ItsLab

namespace ItsLab

/-! ## Worker concurrency (C4)

`videoWorker` is constructed with the options object
`{ connection: redisConnection, concurrency: 1 }`
(video_worker.js:128-131).  The `1` is a literal; the options object does not
read any environment variable or configuration source, which we model by
making the constructed options a constant function of the environment. -/

structure WorkerOptions where
  concurrency : Nat
  deriving DecidableEq, Repr

/-- The options with which `new Worker('video-processing', handler, ...)` is
invoked.  `env` models `process.env`; the source consults it nowhere in this
options object, so the result is the same for every environment. -/
def videoWorkerOptions (_env : String → Option String) : WorkerOptions :=
  { concurrency := 1 }

/-- A BullMQ worker's job scheduler: `running` jobs are in flight, `waiting`
jobs are queued.  A new job may start only while strictly fewer than
`concurrency` jobs are in flight. -/
structure WorkerState where
  running : Nat
  waiting : Nat
  deriving DecidableEq, Repr

inductive WorkerStep (opts : WorkerOptions) : WorkerState → WorkerState → Prop
  | start (s : WorkerState) (hw : 0 < s.waiting)
      (hc : s.running < opts.concurrency) :
      WorkerStep opts s { running := s.running + 1, waiting := s.waiting - 1 }
  | finish (s : WorkerState) (hr : 0 < s.running) :
      WorkerStep opts s { running := s.running - 1, waiting := s.waiting }
  | enqueue (s : WorkerState) :
      WorkerStep opts s { running := s.running, waiting := s.waiting + 1 }

/-- States reachable from an idle worker with any backlog. -/
inductive WorkerReachable (opts : WorkerOptions) : WorkerState → Prop
  | init (waiting : Nat) : WorkerReachable opts { running := 0, waiting }
  | step {s t : WorkerState} : WorkerReachable opts s → WorkerStep opts s t →
      WorkerReachable opts t

/-- C4 (counterexample).  The claim's "configurable parameter" part is false:
the options are built from the literal `1`, so no environment yields any other
concurrency — in particular no environment can request concurrency 2, and the
concrete environment setting `VIDEO_WORKER_CONCURRENCY=8` still produces 1. -/
theorem videoWorker_concurrency_not_configurable :
    (videoWorkerOptions (fun v =>
        if v = "VIDEO_WORKER_CONCURRENCY" then some "8"
        else none)).concurrency = 1 ∧
    ¬ ∃ env, (videoWorkerOptions env).concurrency = 2 := by
  refine ⟨rfl, ?_⟩
  rintro ⟨env, h⟩
  simp [videoWorkerOptions] at h

/-- C4 (amended).  At most one transcode job is in flight at any time,
platform-wide, no matter how many jobs are enqueued: every state the worker
scheduler can reach under the constructed options has `running ≤ 1`.  The
bound, however, is the hard-coded literal 1 of the worker construction — the
same for every environment — not a configurable parameter. -/
theorem videoWorker_single_inflight (env env' : String → Option String)
    (s : WorkerState)
    (hs : WorkerReachable (videoWorkerOptions env) s) :
    s.running ≤ 1 ∧ videoWorkerOptions env = videoWorkerOptions env' := by
  refine ⟨?_, rfl⟩
  induction hs with
  | init waiting => exact Nat.zero_le 1
  | step hr hstep ih =>
      cases hstep with
      | start hw hc => exact hc
      | finish hr' => exact le_trans (Nat.sub_le _ _) ih
      | enqueue => exact ih

/-- Witness for `videoWorker_single_inflight`: from an idle worker with a
backlog of 5 jobs, after starting one job the scheduler is at the bound. -/
theorem videoWorker_single_inflight_witness :
    ({ running := 1, waiting := 4 } : WorkerState).running ≤ 1 :=
  (videoWorker_single_inflight (fun _ => none) (fun _ => none)
    { running := 1, waiting := 4 }
    (WorkerReachable.step (WorkerReachable.init 5)
      (WorkerStep.start { running := 0, waiting := 5 } (by decide)
        (by decide)))).1

end ItsLab

namespace ItsLab

/-! ## Progressive (range) streaming (C6)

The MP4/WebM/OGG branch of `streamLessonVideo` (courseController.js:363-403).
The Range header is processed by
`range.replace(/bytes=/, "").split("-")` followed by `parseInt(_, 10)`. -/

/-- The whitespace class skipped by JavaScript's `parseInt` / trimmed by
`String.prototype.trim` (ASCII part; the inputs at hand are ASCII). -/
def isJsWhitespace (c : Char) : Bool :=
  c = ' ' || c = '\t' || c = '\n' || c = '\r' || c = '\x0b' || c = '\x0c'

end ItsLab

namespace ItsLab

end ItsLab

namespace ItsLab

/-! ## Segment path resolution (C10)

`streamHLSSegment` builds
`path.join(process.cwd(), 'public/uploads/videos', lessonId, segmentName)`
(courseController.js:487) and opens that path; neither route parameter is
sanitized.  `path.join` concatenates its arguments with `/` and then
normalizes the result, resolving `.` and `..` components.  We model resolved
paths relative to `process.cwd()` as a pair: how many `..` levels escaped
above the cwd, and the remaining segment list. -/

/-- One step of node's path normalization over cwd-relative segments. -/
def joinStep : Nat × List String → String → Nat × List String
  | (ups, acc), seg =>
    if seg = "" ∨ seg = "." then (ups, acc)
    else if seg = ".." then
      match acc with
      | [] => (ups + 1, [])
      | _ => (ups, acc.dropLast)
    else (ups, acc ++ [seg])

def resolveFromCwd (segs : List String) : Nat × List String :=
  segs.foldl joinStep (0, [])

def consFirstS (c : Char) : List (List Char) → List (List Char)
  | [] => [[c]]
  | l :: ls => (c :: l) :: ls

def splitSlashChars : List Char → List (List Char)
  | [] => [[]]
  | c :: cs =>
      if c = '/' then [] :: splitSlashChars cs
      else consFirstS c (splitSlashChars cs)

/-- The `/`-separated components of a (decoded) route parameter. -/
def pathSegmentsOf (s : String) : List String :=
  (splitSlashChars s.data).map (fun l => String.mk l)

/-- The cwd-relative path opened by `streamHLSSegment` for a request
`GET .../video/segment/:lessonId/:segmentName`. -/
def segmentRequestPath (lessonId segmentName : String) : Nat × List String :=
  resolveFromCwd (["public", "uploads", "videos"] ++
    pathSegmentsOf lessonId ++ pathSegmentsOf segmentName)

/-- C10 (counterexample).  The caller-supplied `segmentName` is not confined
to the asset's directory: for lesson `L1`, the (URL-decodable) segment name
`../../../../etc/passwd` resolves to `etc/passwd` under the process cwd —
outside `public/uploads/videos/L1` (indeed outside `public/` altogether), and
that is the path the handler opens and streams. -/
theorem segment_path_traversal_escapes :
    segmentRequestPath "L1" "../../../../etc/passwd" = (0, ["etc", "passwd"]) ∧
    (segmentRequestPath "L1" "../../../../etc/passwd").2.take 4 ≠
      ["public", "uploads", "videos", "L1"] := by
  constructor
  · rfl
  · decide

theorem resolveFromCwd_no_dotdot (segs : List String) (ups : Nat)
    (acc : List String) (h : ∀ s ∈ segs, s ≠ "..") :
    segs.foldl joinStep (ups, acc) =
      (ups, acc ++ segs.filter (fun s => !(s = "" ∨ s = "."))) := by
  induction segs generalizing acc with
  | nil => simp
  | cons s segs ih =>
      have hs : s ≠ ".." := h s (by simp)
      by_cases hdrop : s = "" ∨ s = "."
      · have hstep : joinStep (ups, acc) s = (ups, acc) := by
          simp [joinStep, hdrop]
        rw [List.foldl_cons, hstep, ih _ (fun x hx => h x (by simp [hx]))]
        have : (List.filter (fun s => !(s = "" ∨ s = ".")) (s :: segs)) =
            List.filter (fun s => !(s = "" ∨ s = ".")) segs := by
          simp [List.filter, hdrop]
        rw [this]
      · have hstep : joinStep (ups, acc) s = (ups, acc ++ [s]) := by
          simp [joinStep, hdrop, hs]
        rw [List.foldl_cons, hstep, ih _ (fun x hx => h x (by simp [hx]))]
        have : (List.filter (fun s => !(s = "" ∨ s = ".")) (s :: segs)) =
            s :: List.filter (fun s => !(s = "" ∨ s = ".")) segs := by
          simp [List.filter, hdrop]
        rw [this]
        simp

/-- C10 (amended).  Provided the decoded `segmentName` contains no `..`
component and the lesson id is a plain identifier (a single component that is
not `..`, `.` or empty, as the UUID lesson ids are), the resolved path stays
inside the asset's own directory `public/uploads/videos/{lessonId}`: it never
escapes the cwd and its first four components are exactly that directory. -/
theorem segment_path_stays_inside (lessonId segmentName : String)
    (hid : pathSegmentsOf lessonId = [lessonId])
    (hid1 : lessonId ≠ "..") (hid2 : lessonId ≠ ".") (hid3 : lessonId ≠ "")
    (hseg : ∀ s ∈ pathSegmentsOf segmentName, s ≠ "..") :
    (segmentRequestPath lessonId segmentName).1 = 0 ∧
    (segmentRequestPath lessonId segmentName).2.take 4 =
      ["public", "uploads", "videos", lessonId] := by
  have hall : ∀ s ∈ ["public", "uploads", "videos"] ++
      pathSegmentsOf lessonId ++ pathSegmentsOf segmentName, s ≠ ".." := by
    intro s hs
    rcases List.mem_append.mp hs with hab | hc
    · rcases List.mem_append.mp hab with ha | hb
      · fin_cases ha <;> decide
      · rw [hid] at hb
        have hsl : s = lessonId := by simpa using hb
        subst hsl
        exact hid1
    · exact hseg s hc
  have := resolveFromCwd_no_dotdot
    (["public", "uploads", "videos"] ++ pathSegmentsOf lessonId ++
      pathSegmentsOf segmentName) 0 [] hall
  rw [segmentRequestPath, resolveFromCwd, this]
  have hfilter : List.filter (fun s => !(s = "" ∨ s = "."))
      (["public", "uploads", "videos"] ++ pathSegmentsOf lessonId ++
        pathSegmentsOf segmentName) =
      ["public", "uploads", "videos", lessonId] ++
        List.filter (fun s => !(s = "" ∨ s = "."))
          (pathSegmentsOf segmentName) := by
    rw [hid]
    simp [List.filter_append, List.filter, hid2, hid3]
  rw [hfilter]
  refine ⟨rfl, ?_⟩
  simp

/-- Witness for `segment_path_stays_inside` at a concrete input. -/
theorem segment_path_stays_inside_witness :
    (segmentRequestPath "L1" "segment_000.ts").2.take 4 =
      ["public", "uploads", "videos", "L1"] :=
  (segment_path_stays_inside "L1" "segment_000.ts" (by decide) (by decide)
    (by decide) (by decide) (by decide)).2

end ItsLab

namespace ItsLab

/-! ## Manifest patching (C3, C5)

The HLS branch of `streamLessonVideo` (courseController.js:327-360) rewrites
the stored playlist on every GET:

1. `content.replace(/URI="([^"]*)"/g, 'URI="key/<lessonId>"')` — a global
   regex substitution on the whole text.  A match is `URI="`, then a maximal
   run of non-quote characters, then a closing `"`; since `[^"]` also matches
   line breaks, a match may span lines.  An occurrence of `URI="` with no
   later `"` does not match and is left alone (and then nothing later can
   match either, as no quote remains).
2. `content.split(/\r?\n/)`, then per line: if the trimmed line is non-empty
   and does not start with `#`, replace the whole line by
   `segment/<lessonId>/<filename>` where `filename` is the trimmed text after
   the last `/`; otherwise keep the line.
3. `patchedLines.join('\n')`.

We model the text as `List Char`.  The scanner `uriScan` implements the
global substitution with an explicit fuel argument (any fuel of at least the
input length computes the same result, which keeps the definition
structurally recursive and executable). -/

/-- Split at the first `"`: `some (before, after)` or `none` when there is no
quote at all (the regex `[^"]*"` then cannot complete a match). -/
def splitAtQuote : List Char → Option (List Char × List Char)
  | [] => none
  | c :: cs =>
      if c = '"' then some ([], cs)
      else
        match splitAtQuote cs with
        | none => none
        | some p => some (c :: p.1, p.2)

/-- Does the regex `URI="` match at the head of the text? -/
def matchesKeyURI (l : List Char) : Bool :=
  l.take 5 = ['U', 'R', 'I', '=', '"']

/-- The global-substitution scanner: find `URI="`, find the closing `"`,
replace the whole match by `URI="<keyRef>"`, resume after the closing quote;
an occurrence without a closing quote is left as is (together with everything
after it — no quote remains, so no further match is possible). -/
def uriScan (keyRef : List Char) : Nat → List Char → List Char
  | 0, l => l
  | _ + 1, [] => []
  | fuel + 1, c :: cs =>
      if matchesKeyURI (c :: cs) then
        match splitAtQuote ((c :: cs).drop 5) with
        | some p => 'U' :: 'R' :: 'I' :: '=' :: '"' ::
            (keyRef ++ '"' :: uriScan keyRef fuel p.2)
        | none => c :: cs
      else c :: uriScan keyRef fuel cs

/-- `content.replace(/URI="([^"]*)"/g, 'URI="<keyRef>"')`. -/
def uriReplaceAll (keyRef : List Char) (l : List Char) : List Char :=
  uriScan keyRef l.length l

/-- Scanner deciding that every `URI="` occurrence scanned is closed by a
later quote (the global substitution then never hits the unmatched case). -/
def uriClosedScan : Nat → List Char → Bool
  | 0, _ => true
  | _ + 1, [] => true
  | fuel + 1, c :: cs =>
      if matchesKeyURI (c :: cs) then
        match splitAtQuote ((c :: cs).drop 5) with
        | some p => uriClosedScan fuel p.2
        | none => false
      else uriClosedScan fuel cs

def lineURIClosed (l : List Char) : Bool := uriClosedScan l.length l

theorem splitAtQuote_append {l a b : List Char}
    (h : splitAtQuote l = some (a, b)) (z : List Char) :
    splitAtQuote (l ++ z) = some (a, b ++ z) := by
  induction l generalizing a with
  | nil => simp [splitAtQuote] at h
  | cons c cs ih =>
      rw [splitAtQuote] at h
      by_cases hc : c = '"'
      · rw [if_pos hc] at h
        simp only [Option.some.injEq, Prod.mk.injEq] at h
        obtain ⟨rfl, rfl⟩ := h
        simp [splitAtQuote, hc]
      · rw [if_neg hc] at h
        rcases hp : splitAtQuote cs with _ | ⟨a', b'⟩
        · rw [hp] at h; simp at h
        · rw [hp] at h
          simp only [Option.some.injEq, Prod.mk.injEq] at h
          obtain ⟨rfl, rfl⟩ := h
          rw [List.cons_append, splitAtQuote, if_neg hc, ih hp]

theorem splitAtQuote_decomp {l a b : List Char}
    (h : splitAtQuote l = some (a, b)) :
    l = a ++ '"' :: b ∧ ∀ c ∈ a, c ≠ '"' := by
  induction l generalizing a with
  | nil => exact absurd h (by simp [splitAtQuote])
  | cons c cs ih =>
      rw [splitAtQuote] at h
      by_cases hc : c = '"'
      · rw [if_pos hc] at h
        injection h with h
        injection h with h1 h2
        subst h1; subst h2; subst hc
        exact ⟨rfl, by simp⟩
      · rw [if_neg hc] at h
        rcases hp : splitAtQuote cs with _ | p
        · rw [hp] at h; exact absurd h (by simp)
        · rw [hp] at h
          injection h with h
          injection h with h1 h2
          subst h2
          rcases ih hp with ⟨hd, hq⟩
          constructor
          · rw [← h1, hd]; rfl
          · intro x hx
            rw [← h1] at hx
            rcases List.mem_cons.mp hx with rfl | hx
            · exact hc
            · exact hq x hx

theorem splitAtQuote_none_iff (l : List Char) :
    splitAtQuote l = none ↔ ∀ c ∈ l, c ≠ '"' := by
  induction l with
  | nil => simp [splitAtQuote]
  | cons c cs ih =>
      rw [splitAtQuote]
      by_cases hc : c = '"'
      · subst hc
        simp
      · rw [if_neg hc]
        rcases hp : splitAtQuote cs with _ | p
        · refine ⟨fun _ x hx => ?_, fun _ => rfl⟩
          rcases List.mem_cons.mp hx with rfl | hx'
          · exact hc
          · exact ih.mp hp x hx'
        · refine ⟨fun h => by simp at h, fun h => ?_⟩
          have hnone : splitAtQuote cs = none :=
            ih.mpr (fun x hx => h x (List.mem_cons_of_mem c hx))
          rw [hnone] at hp
          simp at hp

theorem splitAtQuote_some_of_quote {a b : List Char} (hq : ∀ c ∈ a, c ≠ '"') :
    splitAtQuote (a ++ '"' :: b) = some (a, b) := by
  induction a with
  | nil => simp [splitAtQuote]
  | cons c cs ih =>
      have hc : c ≠ '"' := hq c (by simp)
      rw [List.cons_append, splitAtQuote, if_neg hc,
        ih (fun x hx => hq x (by simp [hx]))]

theorem splitAtQuote_shrinks {l a b : List Char}
    (h : splitAtQuote l = some (a, b)) : b.length < l.length := by
  rcases splitAtQuote_decomp h with ⟨hd, -⟩
  subst hd
  simp
  omega

end ItsLab

namespace ItsLab

theorem matchesKeyURI_decomp {l : List Char} (h : matchesKeyURI l = true) :
    l = 'U' :: 'R' :: 'I' :: '=' :: '"' :: l.drop 5 := by
  have ht : l.take 5 = ['U', 'R', 'I', '=', '"'] := by
    simpa [matchesKeyURI] using h
  conv_lhs => rw [← List.take_append_drop 5 l]
  rw [ht]
  rfl

theorem matchesKeyURI_length {l : List Char} (h : matchesKeyURI l = true) :
    5 ≤ l.length := by
  have ht : l.take 5 = ['U', 'R', 'I', '=', '"'] := by
    simpa [matchesKeyURI] using h
  have := congrArg List.length ht
  rw [List.length_take] at this
  simp at this
  omega

theorem matchesKeyURI_append {l : List Char} (h : matchesKeyURI l = true)
    (z : List Char) : matchesKeyURI (l ++ z) = true := by
  simp only [matchesKeyURI, decide_eq_true_eq] at h ⊢
  rw [List.take_append_of_le_length (matchesKeyURI_length (by
    simp [matchesKeyURI, h]))]
  exact h

theorem matchesKeyURI_newline {a b : List Char}
    (h : matchesKeyURI (a ++ '\n' :: b) = true) : matchesKeyURI a = true := by
  by_cases hlen : 5 ≤ a.length
  · simp only [matchesKeyURI, decide_eq_true_eq] at h ⊢
    rwa [List.take_append_of_le_length hlen] at h
  · exfalso
    push_neg at hlen
    simp only [matchesKeyURI, decide_eq_true_eq] at h
    rw [List.take_append_eq_append_take] at h
    have hnl : '\n' ∈ a.take 5 ++ ('\n' :: b).take (5 - a.length) := by
      have : 1 ≤ 5 - a.length := by omega
      cases hh : 5 - a.length with
      | zero => omega
      | succ m => simp [hh, List.take_succ_cons]
    rw [h] at hnl
    simp at hnl

theorem uriScan_fuel (keyRef : List Char) :
    ∀ f g l, l.length ≤ f → l.length ≤ g →
      uriScan keyRef f l = uriScan keyRef g l := by
  intro f
  induction f with
  | zero =>
      intro g l hf _
      have : l = [] := List.length_eq_zero.mp (Nat.le_zero.mp hf)
      subst this
      cases g <;> rfl
  | succ f ih =>
      intro g l hf hg
      cases l with
      | nil => cases g <;> rfl
      | cons c cs =>
          cases g with
          | zero => simp at hg
          | succ g' =>
              rw [uriScan, uriScan]
              by_cases hm : matchesKeyURI (c :: cs) = true
              · rw [if_pos hm, if_pos hm]
                rcases hq : splitAtQuote ((c :: cs).drop 5) with _ | p
                · rfl
                · have hlen5 : 5 ≤ (c :: cs).length := matchesKeyURI_length hm
                  have hplen : p.2.length < ((c :: cs).drop 5).length :=
                    splitAtQuote_shrinks hq
                  rw [List.length_drop] at hplen
                  have h1 : p.2.length ≤ f := by
                    simp only [List.length_cons] at hf hlen5 hplen
                    omega
                  have h2 : p.2.length ≤ g' := by
                    simp only [List.length_cons] at hg hlen5 hplen
                    omega
                  exact congrArg (fun t => 'U' :: 'R' :: 'I' :: '=' :: '"' ::
                    (keyRef ++ '"' :: t)) (ih g' p.2 h1 h2)
              · rw [if_neg hm, if_neg hm]
                have h1 : cs.length ≤ f := by
                  simp only [List.length_cons] at hf; omega
                have h2 : cs.length ≤ g' := by
                  simp only [List.length_cons] at hg; omega
                rw [ih g' cs h1 h2]

theorem uriClosedScan_fuel :
    ∀ f g l, l.length ≤ f → l.length ≤ g →
      uriClosedScan f l = uriClosedScan g l := by
  intro f
  induction f with
  | zero =>
      intro g l hf _
      have : l = [] := List.length_eq_zero.mp (Nat.le_zero.mp hf)
      subst this
      cases g <;> rfl
  | succ f ih =>
      intro g l hf hg
      cases l with
      | nil => cases g <;> rfl
      | cons c cs =>
          cases g with
          | zero => simp at hg
          | succ g' =>
              rw [uriClosedScan, uriClosedScan]
              by_cases hm : matchesKeyURI (c :: cs) = true
              · rw [if_pos hm, if_pos hm]
                rcases hq : splitAtQuote ((c :: cs).drop 5) with _ | p
                · rfl
                · have hlen5 : 5 ≤ (c :: cs).length := matchesKeyURI_length hm
                  have hplen : p.2.length < ((c :: cs).drop 5).length :=
                    splitAtQuote_shrinks hq
                  rw [List.length_drop] at hplen
                  have h1 : p.2.length ≤ f := by
                    simp only [List.length_cons] at hf hlen5 hplen
                    omega
                  have h2 : p.2.length ≤ g' := by
                    simp only [List.length_cons] at hg hlen5 hplen
                    omega
                  exact ih g' p.2 h1 h2
              · rw [if_neg hm, if_neg hm]
                have h1 : cs.length ≤ f := by
                  simp only [List.length_cons] at hf; omega
                have h2 : cs.length ≤ g' := by
                  simp only [List.length_cons] at hg; omega
                rw [ih g' cs h1 h2]

theorem uriScan_succ (k : List Char) (f : Nat) (c : Char) (cs : List Char) :
    uriScan k (f + 1) (c :: cs) =
      if matchesKeyURI (c :: cs) then
        match splitAtQuote ((c :: cs).drop 5) with
        | some p => 'U' :: 'R' :: 'I' :: '=' :: '"' ::
            (k ++ '"' :: uriScan k f p.2)
        | none => c :: cs
      else c :: uriScan k f cs := rfl

theorem uriClosedScan_succ (f : Nat) (c : Char) (cs : List Char) :
    uriClosedScan (f + 1) (c :: cs) =
      if matchesKeyURI (c :: cs) then
        match splitAtQuote ((c :: cs).drop 5) with
        | some p => uriClosedScan f p.2
        | none => false
      else uriClosedScan f cs := rfl

theorem uriReplaceAll_not_match {k : List Char} {c : Char} {cs : List Char}
    (h : ¬ matchesKeyURI (c :: cs) = true) :
    uriReplaceAll k (c :: cs) = c :: uriReplaceAll k cs := by
  show uriScan k (cs.length + 1) (c :: cs) = c :: uriScan k cs.length cs
  rw [uriScan, if_neg h]

theorem uriReplaceAll_match_some {k l : List Char} {a b : List Char}
    (hm : matchesKeyURI l = true) (hq : splitAtQuote (l.drop 5) = some (a, b)) :
    uriReplaceAll k l =
      'U' :: 'R' :: 'I' :: '=' :: '"' :: (k ++ '"' :: uriReplaceAll k b) := by
  obtain ⟨r, rfl⟩ : ∃ r, l = 'U' :: 'R' :: 'I' :: '=' :: '"' :: r :=
    ⟨l.drop 5, matchesKeyURI_decomp hm⟩
  have hq' : splitAtQuote r = some (a, b) := hq
  have hb : b.length < r.length := splitAtQuote_shrinks hq'
  show uriScan k (r.length + 4 + 1) ('U' :: 'R' :: 'I' :: '=' :: '"' :: r) = _
  rw [uriScan_succ, if_pos hm]
  have hq2 : splitAtQuote (('U' :: 'R' :: 'I' :: '=' :: '"' :: r).drop 5) =
      some (a, b) := hq'
  rw [hq2]
  exact congrArg (fun t => 'U' :: 'R' :: 'I' :: '=' :: '"' ::
    (k ++ '"' :: t)) (uriScan_fuel k (r.length + 4) b.length b (by omega)
      (le_refl _))

theorem uriReplaceAll_match_none {k l : List Char}
    (hm : matchesKeyURI l = true) (hq : splitAtQuote (l.drop 5) = none) :
    uriReplaceAll k l = l := by
  obtain ⟨r, rfl⟩ : ∃ r, l = 'U' :: 'R' :: 'I' :: '=' :: '"' :: r :=
    ⟨l.drop 5, matchesKeyURI_decomp hm⟩
  have hq' : splitAtQuote r = none := hq
  show uriScan k (r.length + 4 + 1) ('U' :: 'R' :: 'I' :: '=' :: '"' :: r) = _
  rw [uriScan_succ, if_pos hm]
  have hq2 : splitAtQuote (('U' :: 'R' :: 'I' :: '=' :: '"' :: r).drop 5) =
      none := hq'
  rw [hq2]

theorem lineURIClosed_not_match {c : Char} {cs : List Char}
    (h : ¬ matchesKeyURI (c :: cs) = true) :
    lineURIClosed (c :: cs) = lineURIClosed cs := by
  show uriClosedScan (cs.length + 1) (c :: cs) = uriClosedScan cs.length cs
  rw [uriClosedScan_succ, if_neg h]

theorem lineURIClosed_match_some {l a b : List Char}
    (hm : matchesKeyURI l = true) (hq : splitAtQuote (l.drop 5) = some (a, b)) :
    lineURIClosed l = lineURIClosed b := by
  obtain ⟨r, rfl⟩ : ∃ r, l = 'U' :: 'R' :: 'I' :: '=' :: '"' :: r :=
    ⟨l.drop 5, matchesKeyURI_decomp hm⟩
  have hq' : splitAtQuote r = some (a, b) := hq
  have hb : b.length < r.length := splitAtQuote_shrinks hq'
  show uriClosedScan (r.length + 4 + 1) ('U' :: 'R' :: 'I' :: '=' :: '"' :: r) =
    _
  rw [uriClosedScan_succ, if_pos hm]
  have hq2 : splitAtQuote (('U' :: 'R' :: 'I' :: '=' :: '"' :: r).drop 5) =
      some (a, b) := hq'
  rw [hq2]
  exact uriClosedScan_fuel (r.length + 4) b.length b (by omega) (le_refl _)

theorem lineURIClosed_match_none {l : List Char}
    (hm : matchesKeyURI l = true) (hq : splitAtQuote (l.drop 5) = none) :
    lineURIClosed l = false := by
  obtain ⟨r, rfl⟩ : ∃ r, l = 'U' :: 'R' :: 'I' :: '=' :: '"' :: r :=
    ⟨l.drop 5, matchesKeyURI_decomp hm⟩
  have hq' : splitAtQuote r = none := hq
  show uriClosedScan (r.length + 4 + 1) ('U' :: 'R' :: 'I' :: '=' :: '"' :: r) =
    false
  rw [uriClosedScan_succ, if_pos hm]
  have hq2 : splitAtQuote (('U' :: 'R' :: 'I' :: '=' :: '"' :: r).drop 5) =
      none := hq'
  rw [hq2]

end ItsLab

namespace ItsLab

theorem uriReplaceAll_newline_split (k : List Char) :
    ∀ n (a b : List Char), a.length ≤ n → lineURIClosed a = true →
      uriReplaceAll k (a ++ '\n' :: b) =
        uriReplaceAll k a ++ '\n' :: uriReplaceAll k b := by
  have hnl : ∀ b : List Char, ¬ matchesKeyURI ('\n' :: b) = true := by
    intro b h
    have := matchesKeyURI_decomp h
    simp at this
  intro n
  induction n with
  | zero =>
      intro a b ha _
      have : a = [] := List.length_eq_zero.mp (Nat.le_zero.mp ha)
      subst this
      rw [List.nil_append, uriReplaceAll_not_match (hnl b)]
      rfl
  | succ n ih =>
      intro a b ha hclosed
      cases a with
      | nil =>
          rw [List.nil_append, uriReplaceAll_not_match (hnl b)]
          rfl
      | cons c cs =>
          by_cases hm : matchesKeyURI (c :: cs) = true
          · rcases hq : splitAtQuote ((c :: cs).drop 5) with _ | ⟨x, y⟩
            · rw [lineURIClosed_match_none hm hq] at hclosed
              exact absurd hclosed (by simp)
            · have hm2 : matchesKeyURI ((c :: cs) ++ '\n' :: b) = true :=
                matchesKeyURI_append hm _
              have hdrop : ((c :: cs) ++ '\n' :: b).drop 5 =
                  (c :: cs).drop 5 ++ '\n' :: b :=
                List.drop_append_of_le_length (matchesKeyURI_length hm)
              have hq2 : splitAtQuote (((c :: cs) ++ '\n' :: b).drop 5) =
                  some (x, y ++ '\n' :: b) := by
                rw [hdrop]
                exact splitAtQuote_append hq _
              rw [uriReplaceAll_match_some hm2 hq2,
                uriReplaceAll_match_some hm hq]
              have hylen : y.length ≤ n := by
                have h1 := splitAtQuote_shrinks hq
                have h2 := matchesKeyURI_length hm
                rw [List.length_drop] at h1
                simp only [List.length_cons] at ha h2 h1
                omega
              have hcy : lineURIClosed y = true := by
                rw [lineURIClosed_match_some hm hq] at hclosed
                exact hclosed
              rw [ih y b hylen hcy]
              simp
          · have hm2 : ¬ matchesKeyURI (c :: (cs ++ '\n' :: b)) = true := by
              intro h'
              exact hm (matchesKeyURI_newline h')
            have hccs : (c :: cs) ++ '\n' :: b = c :: (cs ++ '\n' :: b) := rfl
            rw [hccs, uriReplaceAll_not_match hm2,
              uriReplaceAll_not_match hm]
            have hclosed' : lineURIClosed cs = true := by
              rw [lineURIClosed_not_match hm] at hclosed
              exact hclosed
            have hcslen : cs.length ≤ n := by
              simp only [List.length_cons] at ha
              omega
            rw [ih cs b hcslen hclosed']
            rfl

/-- `patchedLines.join('\n')`. -/
def joinLF : List (List Char) → List Char
  | [] => []
  | [l] => l
  | l :: ls => l ++ '\n' :: joinLF ls

theorem joinLF_cons_cons (l l₂ : List Char) (ls : List (List Char)) :
    joinLF (l :: l₂ :: ls) = l ++ '\n' :: joinLF (l₂ :: ls) := rfl

/-- The global key-URI substitution distributes over the lines of the
manifest when every line closes its own key-URI attributes. -/
theorem uriReplaceAll_joinLF (k : List Char) (lines : List (List Char))
    (h : ∀ l ∈ lines, lineURIClosed l = true) :
    uriReplaceAll k (joinLF lines) = joinLF (lines.map (uriReplaceAll k)) := by
  induction lines with
  | nil => rfl
  | cons l ls ih =>
      cases ls with
      | nil => rfl
      | cons l₂ ls₂ =>
          rw [joinLF_cons_cons,
            uriReplaceAll_newline_split k l.length l _ (le_refl _)
              (h l (by simp)),
            ih (fun x hx => h x (by simp [hx]))]
          rfl

/-- `content.split(/\r?\n/)`: split at every `\n`, also consuming one
immediately preceding `\r`; a lone `\r` stays inside its line.  The fuel
argument keeps the recursion structural; any fuel of at least the input
length computes the same value. -/
def splitLinesFuel : Nat → List Char → List (List Char)
  | 0, l => [l]
  | _ + 1, [] => [[]]
  | fuel + 1, c :: cs =>
      if c = '\n' then [] :: splitLinesFuel fuel cs
      else if c = '\r' ∧ cs.head? = some '\n' then
        [] :: splitLinesFuel fuel cs.tail
      else consFirstS c (splitLinesFuel fuel cs)

def splitManifestLines (l : List Char) : List (List Char) :=
  splitLinesFuel l.length l

theorem splitLinesFuel_succ (fuel : Nat) (c : Char) (cs : List Char) :
    splitLinesFuel (fuel + 1) (c :: cs) =
      if c = '\n' then [] :: splitLinesFuel fuel cs
      else if c = '\r' ∧ cs.head? = some '\n' then
        [] :: splitLinesFuel fuel cs.tail
      else consFirstS c (splitLinesFuel fuel cs) := rfl

theorem splitLinesFuel_fuel :
    ∀ f g l, l.length ≤ f → l.length ≤ g →
      splitLinesFuel f l = splitLinesFuel g l := by
  intro f
  induction f with
  | zero =>
      intro g l hf _
      have : l = [] := List.length_eq_zero.mp (Nat.le_zero.mp hf)
      subst this
      cases g <;> rfl
  | succ f ih =>
      intro g l hf hg
      cases l with
      | nil => cases g <;> rfl
      | cons c cs =>
          cases g with
          | zero => simp at hg
          | succ g' =>
              have hf' : cs.length ≤ f := by
                simp only [List.length_cons] at hf; omega
              have hg' : cs.length ≤ g' := by
                simp only [List.length_cons] at hg; omega
              have htl : cs.tail.length ≤ cs.length := by
                rw [List.length_tail]; omega
              have hft : cs.tail.length ≤ f := le_trans htl hf'
              have hgt : cs.tail.length ≤ g' := le_trans htl hg'
              rw [splitLinesFuel_succ, splitLinesFuel_succ]
              by_cases h1 : c = '\n'
              · rw [if_pos h1, if_pos h1, ih g' cs hf' hg']
              · rw [if_neg h1, if_neg h1]
                by_cases h2 : c = '\r' ∧ cs.head? = some '\n'
                · rw [if_pos h2, if_pos h2, ih g' cs.tail hft hgt]
                · rw [if_neg h2, if_neg h2, ih g' cs hf' hg']

theorem splitManifestLines_newline (cs : List Char) :
    splitManifestLines ('\n' :: cs) = [] :: splitManifestLines cs := rfl

theorem splitManifestLines_other {c : Char} (cs : List Char)
    (h1 : c ≠ '\n') (h2 : c ≠ '\r') :
    splitManifestLines (c :: cs) = consFirstS c (splitManifestLines cs) := by
  show splitLinesFuel (cs.length + 1) (c :: cs) = _
  rw [splitLinesFuel_succ, if_neg h1, if_neg (fun h => h2 h.1)]
  rfl

theorem splitManifestLines_no_break {l : List Char}
    (h : ∀ c ∈ l, c ≠ '\n' ∧ c ≠ '\r') : splitManifestLines l = [l] := by
  induction l with
  | nil => rfl
  | cons c cs ih =>
      have hc := h c (by simp)
      rw [splitManifestLines_other cs hc.1 hc.2,
        ih (fun x hx => h x (by simp [hx]))]
      rfl

theorem splitManifestLines_append {a b : List Char}
    (h : ∀ c ∈ a, c ≠ '\n' ∧ c ≠ '\r') :
    splitManifestLines (a ++ '\n' :: b) = a :: splitManifestLines b := by
  induction a with
  | nil => simp [splitManifestLines_newline]
  | cons c cs ih =>
      have hc := h c (by simp)
      rw [List.cons_append, splitManifestLines_other _ hc.1 hc.2,
        ih (fun x hx => h x (by simp [hx]))]
      rfl

theorem splitManifestLines_joinLF (lines : List (List Char))
    (hne : lines ≠ [])
    (h : ∀ l ∈ lines, ∀ c ∈ l, c ≠ '\n' ∧ c ≠ '\r') :
    splitManifestLines (joinLF lines) = lines := by
  induction lines with
  | nil => exact absurd rfl hne
  | cons l ls ih =>
      cases ls with
      | nil => exact splitManifestLines_no_break (h l (by simp))
      | cons l₂ ls₂ =>
          rw [joinLF_cons_cons, splitManifestLines_append (h l (by simp)),
            ih (by simp) (fun x hx => h x (by simp [hx]))]

theorem mem_uriReplaceAll (k : List Char) :
    ∀ n (l : List Char), l.length ≤ n → ∀ c ∈ uriReplaceAll k l,
      c ∈ l ∨ c ∈ k ∨ c ∈ ['U', 'R', 'I', '=', '"'] := by
  intro n
  induction n with
  | zero =>
      intro l hl c hc
      have : l = [] := List.length_eq_zero.mp (Nat.le_zero.mp hl)
      subst this
      simp [uriReplaceAll, uriScan] at hc
  | succ n ih =>
      intro l hl c hc
      cases l with
      | nil => simp [uriReplaceAll, uriScan] at hc
      | cons d ds =>
          by_cases hm : matchesKeyURI (d :: ds) = true
          · rcases hq : splitAtQuote ((d :: ds).drop 5) with _ | ⟨x, y⟩
            · rw [uriReplaceAll_match_none hm hq] at hc
              exact Or.inl hc
            · rw [uriReplaceAll_match_some hm hq] at hc
              have hmemy : ∀ e ∈ y, e ∈ d :: ds := by
                intro e he
                have hdec := matchesKeyURI_decomp hm
                have hsplit := (splitAtQuote_decomp hq).1
                rw [hdec, hsplit]
                simp [he]
              have hylen : y.length ≤ n := by
                have h1 := splitAtQuote_shrinks hq
                have h2 := matchesKeyURI_length hm
                rw [List.length_drop] at h1
                simp only [List.length_cons] at hl h2 h1
                omega
              simp only [List.mem_cons, List.mem_append] at hc
              rcases hc with rfl | rfl | rfl | rfl | rfl | hck | rfl | hcy
              · right; right; simp
              · right; right; simp
              · right; right; simp
              · right; right; simp
              · right; right; simp
              · exact Or.inr (Or.inl hck)
              · right; right; simp
              · rcases ih y hylen c hcy with hy | hk | hpat
                · exact Or.inl (hmemy c hy)
                · exact Or.inr (Or.inl hk)
                · exact Or.inr (Or.inr hpat)
          · rw [uriReplaceAll_not_match hm] at hc
            rcases List.mem_cons.mp hc with rfl | hc'
            · exact Or.inl (by simp)
            · have hdslen : ds.length ≤ n := by
                simp only [List.length_cons] at hl
                omega
              rcases ih ds hdslen c hc' with hy | hk | hpat
              · exact Or.inl (by simp [hy])
              · exact Or.inr (Or.inl hk)
              · exact Or.inr (Or.inr hpat)

end ItsLab

namespace ItsLab

/-- `line.trim()` (JavaScript trim; ASCII whitespace suffices for the
character set at hand). -/
def jsTrim (l : List Char) : List Char :=
  ((l.dropWhile isJsWhitespace).reverse.dropWhile isJsWhitespace).reverse

/-- `trimmed.split('/').pop()`: the text after the last `/` (the whole text
when there is no `/`). -/
def lastSlashComponent (l : List Char) : List Char :=
  (l.reverse.takeWhile (fun c => c ≠ '/')).reverse

/-- The content of the substituted URI attribute: `key/<lessonId>`. -/
def keyRefFor (lessonId : List Char) : List Char :=
  'k' :: 'e' :: 'y' :: '/' :: lessonId

/-- The rewritten segment line prefix `segment/<lessonId>/`. -/
def segmentRoute (lessonId : List Char) : List Char :=
  's' :: 'e' :: 'g' :: 'm' :: 'e' :: 'n' :: 't' :: '/' :: (lessonId ++ ['/'])

/-- The per-line rewrite of `streamLessonVideo` (courseController.js:345-353):
if the trimmed line is non-empty and does not start with `#`, the whole line
becomes `segment/<lessonId>/<filename>` with `filename` the trimmed text
after the last `/`; otherwise the line passes through. -/
def patchSegmentLine (lessonId : List Char) (line : List Char) : List Char :=
  let trimmed := jsTrim line
  if trimmed ≠ [] ∧ trimmed.head? ≠ some '#' then
    segmentRoute lessonId ++ jsTrim (lastSlashComponent trimmed)
  else line

/-- The per-request manifest patch (courseController.js:335-355): the global
key-URI substitution over the whole raw text, then the per-line segment
rewrite over its `\r?\n`-split lines, joined back with `\n`. -/
def patchManifest (lessonId : List Char) (content : List Char) : List Char :=
  joinLF ((splitManifestLines
    (uriReplaceAll (keyRefFor lessonId) content)).map
      (patchSegmentLine lessonId))

/-- The purely line-by-line transform that the specification sentence
describes: each stored line is classified on its own; a non-directive,
non-blank line is replaced by the segment path built from its own leaf
filename, and any other line passes through except for the key-URI
substitution. -/
def patchManifestLinewise (lessonId : List Char) (content : List Char) :
    List Char :=
  joinLF ((splitManifestLines content).map (fun line =>
    let trimmed := jsTrim line
    if trimmed ≠ [] ∧ trimmed.head? ≠ some '#' then
      segmentRoute lessonId ++ jsTrim (lastSlashComponent trimmed)
    else uriReplaceAll (keyRefFor lessonId) line))

end ItsLab

namespace ItsLab

/-- C3 (counterexample).  The served manifest is not the stored manifest
transformed line by line: on the one-line manifest `URI="a.ts"` the gateway
first rewrites the URI attribute in place and only then extracts the leaf
filename, producing `segment/L1/L1"` — while the line-by-line reading of the
claim (segment path built from the stored line's own leaf filename) yields
`segment/L1/URI="a.ts"`. -/
theorem patchManifest_not_linewise :
    patchManifest "L1".data "URI=\"a.ts\"".data = "segment/L1/L1\"".data ∧
    patchManifestLinewise "L1".data "URI=\"a.ts\"".data =
      "segment/L1/URI=\"a.ts\"".data ∧
    patchManifest "L1".data "URI=\"a.ts\"".data ≠
      patchManifestLinewise "L1".data "URI=\"a.ts\"".data := by
  refine ⟨by decide, by decide, by decide⟩

/-- C3 (amended).  For every manifest given by its carriage-return-free lines
in which each key-URI attribute closes on its own line (true of every
encoder-produced playlist), the served text equals the stored manifest
transformed line by line, where the transform of one line first applies the
key-URI substitution to the line and then — for a non-directive, non-blank
line — replaces it by the gateway segment path built from the leaf filename
of the substituted line, directive and blank lines passing through with only
the substitution. -/
theorem patchManifest_linewise_after_substitution (lessonId : List Char)
    (lines : List (List Char))
    (hchars : ∀ l ∈ lines, ∀ c ∈ l, c ≠ '\n' ∧ c ≠ '\r')
    (hid : ∀ c ∈ lessonId, c ≠ '\n' ∧ c ≠ '\r')
    (hclosed : ∀ l ∈ lines, lineURIClosed l = true) :
    patchManifest lessonId (joinLF lines) =
      joinLF (lines.map (fun l =>
        patchSegmentLine lessonId (uriReplaceAll (keyRefFor lessonId) l))) := by
  cases lines with
  | nil => rfl
  | cons l ls =>
      have hfree : ∀ l' ∈ (l :: ls).map (uriReplaceAll (keyRefFor lessonId)),
          ∀ c ∈ l', c ≠ '\n' ∧ c ≠ '\r' := by
        intro l' hl' c hc
        obtain ⟨l₀, hl₀, rfl⟩ := List.mem_map.mp hl'
        rcases mem_uriReplaceAll (keyRefFor lessonId) l₀.length l₀
            (le_refl _) c hc with h0 | hk | hp
        · exact hchars l₀ hl₀ c h0
        · simp only [keyRefFor, List.mem_cons] at hk
          rcases hk with rfl | rfl | rfl | rfl | hcid
          · exact ⟨by decide, by decide⟩
          · exact ⟨by decide, by decide⟩
          · exact ⟨by decide, by decide⟩
          · exact ⟨by decide, by decide⟩
          · exact hid c hcid
        · fin_cases hp <;> exact ⟨by decide, by decide⟩
      rw [patchManifest, uriReplaceAll_joinLF _ _ hclosed,
        splitManifestLines_joinLF _ (by simp) hfree, List.map_map]
      rfl

/-- Witness for `patchManifest_linewise_after_substitution` on a concrete
encoder-shaped playlist: the key line is rewritten to the gateway key route
and the segment line to the gateway segment route. -/
theorem patchManifest_linewise_witness :
    patchManifest "L1".data
        (joinLF ["#EXTM3U".data,
          "#EXT-X-KEY:METHOD=AES-128,URI=\"enc.key\",IV=0x1234".data,
          "segment_000.ts".data,
          "#EXT-X-ENDLIST".data]) =
      joinLF ["#EXTM3U".data,
        "#EXT-X-KEY:METHOD=AES-128,URI=\"key/L1\",IV=0x1234".data,
        "segment/L1/segment_000.ts".data,
        "#EXT-X-ENDLIST".data] := by
  refine (patchManifest_linewise_after_substitution "L1".data
    ["#EXTM3U".data,
      "#EXT-X-KEY:METHOD=AES-128,URI=\"enc.key\",IV=0x1234".data,
      "segment_000.ts".data,
      "#EXT-X-ENDLIST".data]
    (by decide) (by decide) (by decide)).trans (by decide)

end ItsLab

namespace ItsLab

/-! ### Idempotence machinery (C5)

The key structural notion: a text is *patched-shaped* for a key reference
`k` when every occurrence of the 5-character pattern `URI="` in it is either
immediately followed by `k` and a closing quote (a fully normalized
substitution result) or followed by no quote at all (an occurrence the global
substitution provably leaves alone).  The substitution fixes every
patched-shaped text. -/

def patternURI : List Char := ['U', 'R', 'I', '=', '"']

/-- Every `URI="` occurrence is normalized to `k` or unclosed. -/
def GoodLine (k l : List Char) : Prop :=
  ∀ u v, l = u ++ patternURI ++ v →
    (∃ w, v = k ++ '"' :: w) ∨ (∀ c ∈ v, c ≠ '"')

theorem GoodLine_suffix {k a b : List Char} (h : GoodLine k (a ++ b)) :
    GoodLine k b := by
  intro u v hv
  exact h (a ++ u) v (by rw [hv]; simp)

theorem matchesKeyURI_iff_pattern {l : List Char} :
    matchesKeyURI l = true ↔ ∃ r, l = patternURI ++ r := by
  constructor
  · intro h
    exact ⟨l.drop 5, matchesKeyURI_decomp h⟩
  · rintro ⟨r, rfl⟩
    simp [matchesKeyURI, patternURI]

theorem uriReplaceAll_fixed_of_good (k : List Char)
    (hk : ∀ c ∈ k, c ≠ '"') :
    ∀ n l, l.length ≤ n → GoodLine k l → uriReplaceAll k l = l := by
  intro n
  induction n with
  | zero =>
      intro l hl _
      have : l = [] := List.length_eq_zero.mp (Nat.le_zero.mp hl)
      subst this
      rfl
  | succ n ih =>
      intro l hl hg
      cases l with
      | nil => rfl
      | cons c cs =>
          by_cases hm : matchesKeyURI (c :: cs) = true
          · obtain ⟨r, hr⟩ := matchesKeyURI_iff_pattern.mp hm
            rcases hg [] r (by rw [hr]; rfl) with ⟨w, rfl⟩ | hnq
            · have hq : splitAtQuote ((c :: cs).drop 5) = some (k, w) := by
                have : (c :: cs).drop 5 = k ++ '"' :: w := by
                  rw [hr]; rfl
                rw [this]
                exact splitAtQuote_some_of_quote hk
              rw [uriReplaceAll_match_some hm hq]
              have hwlen : w.length ≤ n := by
                have h1 := splitAtQuote_shrinks hq
                have h2 := matchesKeyURI_length hm
                rw [List.length_drop] at h1
                simp only [List.length_cons] at hl h2 h1
                omega
              have hgw : GoodLine k w := by
                have : c :: cs = (patternURI ++ k ++ ['"']) ++ w := by
                  rw [hr]; simp
                rw [this] at hg
                exact GoodLine_suffix hg
              rw [ih w hwlen hgw, hr]
              simp [patternURI]
            · have hq : splitAtQuote ((c :: cs).drop 5) = none := by
                have : (c :: cs).drop 5 = r := by rw [hr]; rfl
                rw [this]
                exact (splitAtQuote_none_iff r).mpr hnq
              exact uriReplaceAll_match_none hm hq
          · rw [uriReplaceAll_not_match hm]
            have hgcs : GoodLine k cs := GoodLine_suffix (a := [c]) hg
            have hcslen : cs.length ≤ n := by
              simp only [List.length_cons] at hl; omega
            rw [ih cs hcslen hgcs]

/-- A quote-free text is fixed by the substitution (no match can complete). -/
theorem uriReplaceAll_fixed_of_noQuote (k : List Char) {l : List Char}
    (h : ∀ c ∈ l, c ≠ '"') : uriReplaceAll k l = l := by
  induction l with
  | nil => rfl
  | cons c cs ih =>
      have hm : ¬ matchesKeyURI (c :: cs) = true := by
        intro hm
        have hd := matchesKeyURI_decomp hm
        have : '"' ∈ c :: cs := by
          rw [hd]; simp
        exact h '"' this rfl
      rw [uriReplaceAll_not_match hm,
        ih (fun x hx => h x (List.mem_cons_of_mem c hx))]

theorem lineURIClosed_of_noQuote {l : List Char}
    (h : ∀ c ∈ l, c ≠ '"') : lineURIClosed l = true := by
  induction l with
  | nil => rfl
  | cons c cs ih =>
      have hm : ¬ matchesKeyURI (c :: cs) = true := by
        intro hm
        have hd := matchesKeyURI_decomp hm
        have : '"' ∈ c :: cs := by
          rw [hd]; simp
        exact h '"' this rfl
      rw [lineURIClosed_not_match hm]
      exact ih (fun x hx => h x (List.mem_cons_of_mem c hx))

end ItsLab

namespace ItsLab

theorem prefix_of_pattern {u a : List Char} (h : patternURI = u ++ a) :
    (u = [] ∧ a = patternURI) ∨
    (u = ['U'] ∧ a = ['R', 'I', '=', '"']) ∨
    (u = ['U', 'R'] ∧ a = ['I', '=', '"']) ∨
    (u = ['U', 'R', 'I'] ∧ a = ['=', '"']) ∨
    (u = ['U', 'R', 'I', '='] ∧ a = ['"']) ∨
    (u = patternURI ∧ a = []) := by
  rcases u with _ | ⟨x₁, _ | ⟨x₂, _ | ⟨x₃, _ | ⟨x₄, _ | ⟨x₅, u'⟩⟩⟩⟩⟩ <;>
    (simp_all [patternURI]; try tauto)

end ItsLab

namespace ItsLab

/-- Overlap analysis: inside a normalized block `URI="<k>"<w>` (with `k`
quote-free and not ending in `URI=`), a `URI="` occurrence either is the
block's own head or lies entirely inside `w`. -/
theorem pattern_overlap {k : List Char} (hk : ∀ c ∈ k, c ≠ '"')
    (hke : ∀ m : List Char, k ≠ m ++ ['U', 'R', 'I', '=']) :
    ∀ u v w : List Char,
      u ++ (patternURI ++ v) = patternURI ++ (k ++ '"' :: w) →
      (u = [] ∧ v = k ++ '"' :: w) ∨
      (∃ u', u = patternURI ++ (k ++ '"' :: u') ∧
        w = u' ++ (patternURI ++ v)) := by
  intro u v w h
  rcases List.append_eq_append_iff.mp h with ⟨a₁, ha₁, hb₁⟩ | ⟨c₁, hc₁, hd₁⟩
  · -- u is a prefix of the pattern
    rcases prefix_of_pattern ha₁ with ⟨rfl, rfl⟩ | ⟨rfl, rfl⟩ | ⟨rfl, rfl⟩ |
      ⟨rfl, rfl⟩ | ⟨rfl, rfl⟩ | ⟨rfl, rfl⟩
    · left
      refine ⟨rfl, ?_⟩
      simpa [patternURI] using hb₁
    · exfalso
      rw [patternURI] at hb₁
      injection hb₁ with hx _
      exact absurd hx (by decide)
    · exfalso
      rw [patternURI] at hb₁
      injection hb₁ with hx _
      exact absurd hx (by decide)
    · exfalso
      rw [patternURI] at hb₁
      injection hb₁ with hx _
      exact absurd hx (by decide)
    · exfalso
      rw [patternURI] at hb₁
      injection hb₁ with hx _
      exact absurd hx (by decide)
    · -- the second pattern starts exactly after the first
      exfalso
      rw [List.nil_append] at hb₁
      rcases List.append_eq_append_iff.mp hb₁ with ⟨a₂, hk₂, _⟩ |
        ⟨c₂, hP₂, hd₂⟩
      · exact hk '"' (by rw [hk₂, patternURI]; simp) rfl
      · rcases prefix_of_pattern hP₂ with ⟨rfl, rfl⟩ | ⟨rfl, rfl⟩ |
          ⟨rfl, rfl⟩ | ⟨rfl, rfl⟩ | ⟨rfl, rfl⟩ | ⟨rfl, rfl⟩
        · rw [patternURI] at hd₂
          injection hd₂ with hx _
          exact absurd hx (by decide)
        · injection hd₂ with hx _
          exact absurd hx (by decide)
        · injection hd₂ with hx _
          exact absurd hx (by decide)
        · injection hd₂ with hx _
          exact absurd hx (by decide)
        · exact hke [] rfl
        · exact hk '"' (by rw [patternURI]; simp) rfl
  · -- the second pattern starts at or after position 5
    rcases List.append_eq_append_iff.mp hd₁ with ⟨a₂, hca, hb₂⟩ |
      ⟨c₂, hkc, hd₂⟩
    · -- c₁ extends beyond k: the closing quote region
      rcases a₂ with _ | ⟨z, a₂'⟩
      · exfalso
        rw [List.nil_append, patternURI] at hb₂
        injection hb₂ with hx _
        exact absurd hx (by decide)
      · right
        rw [List.cons_append] at hb₂
        injection hb₂ with hz hw
        refine ⟨a₂', ?_, hw⟩
        rw [hc₁, hca, hz]
    · -- the second pattern overlaps k and the closing quote
      exfalso
      rcases List.append_eq_append_iff.mp hd₂ with ⟨a₃, hc₂a, _⟩ |
        ⟨c₃, hP₃, hd₃⟩
      · exact hk '"' (by rw [hkc, hc₂a, patternURI]; simp) rfl
      · rcases prefix_of_pattern hP₃ with ⟨rfl, rfl⟩ | ⟨rfl, rfl⟩ |
          ⟨rfl, rfl⟩ | ⟨rfl, rfl⟩ | ⟨rfl, rfl⟩ | ⟨rfl, rfl⟩
        · rw [patternURI] at hd₃
          injection hd₃ with hx _
          exact absurd hx (by decide)
        · injection hd₃ with hx _
          exact absurd hx (by decide)
        · injection hd₃ with hx _
          exact absurd hx (by decide)
        · injection hd₃ with hx _
          exact absurd hx (by decide)
        · exact hke c₁ hkc
        · exact hk '"' (by rw [hkc, patternURI]; simp) rfl

end ItsLab

namespace ItsLab

theorem dropWhile_self (p : Char → Bool) (l : List Char) :
    (l.dropWhile p).dropWhile p = l.dropWhile p := by
  induction l with
  | nil => rfl
  | cons c cs ih =>
      rw [List.dropWhile_cons]
      by_cases hc : p c = true
      · rw [if_pos hc]
        exact ih
      · rw [if_neg hc, List.dropWhile_cons, if_neg hc]

theorem dropWhile_head_false {p : Char → Bool} {l : List Char} {c : Char}
    {cs : List Char} (h : l.dropWhile p = c :: cs) : p c = false := by
  induction l with
  | nil => simp [List.dropWhile] at h
  | cons d ds ih =>
      rw [List.dropWhile_cons] at h
      by_cases hd : p d = true
      · rw [if_pos hd] at h
        exact ih h
      · rw [if_neg hd] at h
        injection h with h1 _
        rw [← h1]
        exact eq_false_of_ne_true hd

theorem dropWhile_append_self {p : Char → Bool} {c : Char} {cs : List Char}
    (h : (c :: cs).dropWhile p = c :: cs) (b : List Char) :
    ((c :: cs) ++ b).dropWhile p = (c :: cs) ++ b := by
  have hc : p c = false := dropWhile_head_false h
  rw [List.cons_append, List.dropWhile_cons, hc]
  simp

theorem mem_dropWhile {p : Char → Bool} {l : List Char} {c : Char}
    (h : c ∈ l.dropWhile p) : c ∈ l := by
  have hsplit : l.takeWhile p ++ l.dropWhile p = l :=
    List.takeWhile_append_dropWhile p l
  rw [← hsplit]
  exact List.mem_append.mpr (Or.inr h)

theorem takeWhile_append_all {p : Char → Bool} {a : List Char} {x : Char}
    (ha : ∀ c ∈ a, p c = true) (hx : p x = false) (b : List Char) :
    (a ++ x :: b).takeWhile p = a := by
  induction a with
  | nil => simp [List.takeWhile, hx]
  | cons c cs ih =>
      rw [List.cons_append, List.takeWhile]
      rw [ha c (by simp)]
      rw [ih (fun d hd => ha d (by simp [hd]))]

theorem map_eq_self_of {α : Type} (f : α → α) :
    ∀ L : List α, (∀ x ∈ L, f x = x) → L.map f = L := by
  intro L hL
  induction L with
  | nil => rfl
  | cons x xs ih =>
      rw [List.map_cons, hL x (by simp), ih (fun y hy => hL y (by simp [hy]))]

theorem mem_jsTrim {l : List Char} {c : Char} (h : c ∈ jsTrim l) : c ∈ l := by
  rw [jsTrim, List.mem_reverse] at h
  have h2 := mem_dropWhile h
  rw [List.mem_reverse] at h2
  exact mem_dropWhile h2

/-- A string is its trim flanked by whitespace; only the right flank is
recorded (the left flank is folded into the prefix). -/
theorem jsTrim_decomp (l : List Char) :
    ∃ p s, l = p ++ jsTrim l ++ s ∧ ∀ c ∈ s, isJsWhitespace c = true := by
  set A := l.dropWhile isJsWhitespace with hA
  set B := A.reverse.dropWhile isJsWhitespace with hB
  have h1 : l.takeWhile isJsWhitespace ++ A = l :=
    List.takeWhile_append_dropWhile _ _
  have h2 : A.reverse.takeWhile isJsWhitespace ++ B = A.reverse :=
    List.takeWhile_append_dropWhile _ _
  have hAr : A = B.reverse ++ (A.reverse.takeWhile isJsWhitespace).reverse := by
    have := congrArg List.reverse h2
    rw [List.reverse_append, List.reverse_reverse] at this
    exact this.symm
  refine ⟨l.takeWhile isJsWhitespace, (A.reverse.takeWhile isJsWhitespace).reverse,
    ?_, ?_⟩
  · have hj : jsTrim l = B.reverse := by rw [jsTrim, ← hA, ← hB]
    rw [hj, List.append_assoc, ← hAr]
    exact h1.symm
  · intro c hc
    rw [List.mem_reverse] at hc
    exact List.mem_takeWhile_imp hc

theorem jsTrim_reverse_dropWhile (l : List Char) :
    (jsTrim l).reverse.dropWhile isJsWhitespace = (jsTrim l).reverse := by
  rw [jsTrim, List.reverse_reverse]
  exact dropWhile_self _ _

theorem jsTrim_dropWhile (l : List Char) :
    (jsTrim l).dropWhile isJsWhitespace = jsTrim l := by
  set A := l.dropWhile isJsWhitespace with hA
  set B := A.reverse.dropWhile isJsWhitespace with hB
  have hj : jsTrim l = B.reverse := by rw [jsTrim, ← hA, ← hB]
  rcases hBr : B.reverse with _ | ⟨c, cs⟩
  · rw [hj, hBr]
    rfl
  · have hhead : B.reverse.head? = some c := by rw [hBr]; rfl
    have hlast : B.getLast? = some c := by
      rw [← List.head?_reverse]
      exact hhead
    have hBne : B ≠ [] := by
      intro h
      rw [h] at hBr
      simp at hBr
    have h2 : A.reverse.takeWhile isJsWhitespace ++ B = A.reverse :=
      List.takeWhile_append_dropWhile _ _
    have hlastA : A.reverse.getLast? = some c := by
      rw [← h2, List.getLast?_append_of_ne_nil _ hBne]
      exact hlast
    have hheadA : A.head? = some c := by
      rw [← List.getLast?_reverse]
      exact hlastA
    obtain ⟨as, hAs⟩ : ∃ as, A = c :: as := by
      cases hAc : A with
      | nil => rw [hAc] at hheadA; simp at hheadA
      | cons d ds =>
          rw [hAc] at hheadA
          injection hheadA with hd
          exact ⟨ds, by rw [hd]⟩
    have hcws : isJsWhitespace c = false := by
      have : A.dropWhile isJsWhitespace = A := by rw [hA]; exact dropWhile_self _ _
      rw [hAs] at this
      exact dropWhile_head_false this
    rw [hj, hBr, List.dropWhile_cons, hcws]
    simp

theorem jsTrim_idem (l : List Char) : jsTrim (jsTrim l) = jsTrim l := by
  rw [jsTrim, jsTrim_dropWhile, jsTrim_reverse_dropWhile, List.reverse_reverse]

theorem mem_lastSlashComponent {l : List Char} {c : Char}
    (h : c ∈ lastSlashComponent l) : c ∈ l ∧ c ≠ '/' := by
  rw [lastSlashComponent, List.mem_reverse] at h
  have hp := List.mem_takeWhile_imp h
  have hm : c ∈ l.reverse := by
    have hsplit : l.reverse.takeWhile (fun c => c ≠ '/') ++
        l.reverse.dropWhile (fun c => c ≠ '/') = l.reverse :=
      List.takeWhile_append_dropWhile _ _
    rw [← hsplit]
    exact List.mem_append.mpr (Or.inl h)
  rw [List.mem_reverse] at hm
  refine ⟨hm, ?_⟩
  simpa using hp

theorem lastSlashComponent_suffix (l : List Char) :
    ∃ p, l = p ++ lastSlashComponent l := by
  refine ⟨(l.reverse.dropWhile (fun c => c ≠ '/')).reverse, ?_⟩
  have h := List.takeWhile_append_dropWhile (fun c => c ≠ '/') l.reverse
  have := congrArg List.reverse h
  rw [List.reverse_append] at this
  rw [lastSlashComponent]
  conv_lhs => rw [← List.reverse_reverse l]
  exact this.symm

theorem lastSlashComponent_append {f : List Char} (hf : ∀ c ∈ f, c ≠ '/')
    (a : List Char) : lastSlashComponent (a ++ '/' :: f) = f := by
  have hrev : (a ++ '/' :: f).reverse = f.reverse ++ '/' :: a.reverse := by
    simp
  rw [lastSlashComponent, hrev,
    takeWhile_append_all
      (fun c hc => by simpa using hf c (List.mem_reverse.mp hc)) (by simp)
      (a.reverse),
    List.reverse_reverse]

end ItsLab

namespace ItsLab

/-- The filename kept by the segment-line rewrite: the trimmed text after the
last slash of the trimmed line (`line.trim().split('/').pop().trim()` — the
second trim is the one applied inside the template literal; the code's
`filename` is already trimmed, so the extra trim is the identity and recorded
here only to keep the shape canonical). -/
def segLeaf (line : List Char) : List Char :=
  jsTrim (lastSlashComponent (jsTrim line))

theorem patchSegmentLine_eq (lessonId line : List Char) :
    patchSegmentLine lessonId line =
      if jsTrim line ≠ [] ∧ (jsTrim line).head? ≠ some '#' then
        segmentRoute lessonId ++ segLeaf line
      else line := rfl

/-- A plausible asset identifier: no quote, no slash, no equals sign, no
whitespace (every UUID satisfies this). -/
def saneLessonId (lessonId : List Char) : Prop :=
  ∀ c ∈ lessonId, c ≠ '"' ∧ c ≠ '/' ∧ c ≠ '=' ∧ isJsWhitespace c = false

theorem saneLessonId_no_break {lessonId : List Char}
    (h : saneLessonId lessonId) : ∀ c ∈ lessonId, c ≠ '\n' ∧ c ≠ '\r' := by
  intro c hc
  have hws := (h c hc).2.2.2
  constructor
  · intro h'
    rw [h'] at hws
    exact absurd hws (by decide)
  · intro h'
    rw [h'] at hws
    exact absurd hws (by decide)

theorem segLeaf_decomp (l : List Char) :
    ∃ p s, l = p ++ segLeaf l ++ s ∧ ∀ c ∈ s, isJsWhitespace c = true := by
  obtain ⟨p₁, s₁, h₁, hs₁⟩ := jsTrim_decomp l
  obtain ⟨p₂, h₂⟩ := lastSlashComponent_suffix (jsTrim l)
  obtain ⟨p₃, s₃, h₃, hs₃⟩ := jsTrim_decomp (lastSlashComponent (jsTrim l))
  refine ⟨p₁ ++ p₂ ++ p₃, s₃ ++ s₁, ?_, ?_⟩
  · rw [segLeaf]
    conv_lhs => rw [h₁, h₂, h₃]
    simp [List.append_assoc]
  · intro c hc
    rcases List.mem_append.mp hc with h | h
    · exact hs₃ c h
    · exact hs₁ c h

theorem segLeaf_noSlash (l : List Char) : ∀ c ∈ segLeaf l, c ≠ '/' := by
  intro c hc
  exact (mem_lastSlashComponent (mem_jsTrim hc)).2

theorem mem_segLeaf {l : List Char} {c : Char} (h : c ∈ segLeaf l) : c ∈ l :=
  mem_jsTrim ((mem_lastSlashComponent (mem_jsTrim h)).1)

theorem segmentRoute_shape (lessonId : List Char) :
    segmentRoute lessonId =
      ('s' :: 'e' :: 'g' :: 'm' :: 'e' :: 'n' :: 't' :: '/' :: lessonId) ++
        ['/'] := by
  simp [segmentRoute]

theorem mem_segmentRoute {lessonId : List Char} {c : Char}
    (h : c ∈ segmentRoute lessonId) :
    c ∈ lessonId ∨ c ∈ ['s', 'e', 'g', 'm', 'n', 't', '/'] := by
  simp only [segmentRoute, List.mem_cons, List.mem_append] at h
  rcases h with rfl | rfl | rfl | rfl | rfl | rfl | rfl | rfl | h | h
  · right; decide
  · right; decide
  · right; decide
  · right; decide
  · right; decide
  · right; decide
  · right; decide
  · right; decide
  · exact Or.inl h
  · right
    rcases h with rfl | h
    · decide
    · simp at h

theorem segmentRoute_noQuote {lessonId : List Char}
    (hid : saneLessonId lessonId) : ∀ c ∈ segmentRoute lessonId, c ≠ '"' := by
  intro c hc
  rcases mem_segmentRoute hc with h | h
  · exact (hid c h).1
  · fin_cases h <;> decide

theorem segmentRoute_no_break {lessonId : List Char}
    (hid : saneLessonId lessonId) :
    ∀ c ∈ segmentRoute lessonId, c ≠ '\n' ∧ c ≠ '\r' := by
  intro c hc
  rcases mem_segmentRoute hc with h | h
  · exact saneLessonId_no_break hid c h
  · fin_cases h <;> exact ⟨by decide, by decide⟩

theorem keyRefFor_noQuote {lessonId : List Char}
    (hid : saneLessonId lessonId) : ∀ c ∈ keyRefFor lessonId, c ≠ '"' := by
  intro c hc
  simp only [keyRefFor, List.mem_cons] at hc
  rcases hc with rfl | rfl | rfl | rfl | h
  · decide
  · decide
  · decide
  · decide
  · exact (hid c h).1

theorem keyRefFor_no_break {lessonId : List Char}
    (hid : saneLessonId lessonId) :
    ∀ c ∈ keyRefFor lessonId, c ≠ '\n' ∧ c ≠ '\r' := by
  intro c hc
  simp only [keyRefFor, List.mem_cons] at hc
  rcases hc with rfl | rfl | rfl | rfl | h
  · exact ⟨by decide, by decide⟩
  · exact ⟨by decide, by decide⟩
  · exact ⟨by decide, by decide⟩
  · exact ⟨by decide, by decide⟩
  · exact saneLessonId_no_break hid c h

theorem keyRefFor_not_URIeq_suffix {lessonId : List Char}
    (hid : saneLessonId lessonId) :
    ∀ m : List Char, keyRefFor lessonId ≠ m ++ ['U', 'R', 'I', '='] := by
  intro m h
  have heq : '=' ∈ keyRefFor lessonId := by
    rw [h]
    simp
  simp only [keyRefFor, List.mem_cons] at heq
  rcases heq with h' | h' | h' | h' | h'
  · exact absurd h' (by decide)
  · exact absurd h' (by decide)
  · exact absurd h' (by decide)
  · exact absurd h' (by decide)
  · exact (hid '=' h').2.2.1 rfl

theorem slash_mem_keyRefFor (lessonId : List Char) :
    '/' ∈ keyRefFor lessonId := by
  simp [keyRefFor]

end ItsLab

namespace ItsLab

/-- A `URI="` occurrence in a rewritten segment line lies entirely inside the
leaf filename: the `segment/<id>/` head is quote-free and ends in a slash,
which the pattern does not contain. -/
theorem occurrence_in_segmentRoute_append {lessonId f u v : List Char}
    (hid : saneLessonId lessonId)
    (h : u ++ (patternURI ++ v) = segmentRoute lessonId ++ f) :
    ∃ u', u = segmentRoute lessonId ++ u' ∧ f = u' ++ (patternURI ++ v) := by
  have hlast : (segmentRoute lessonId).getLast? = some '/' := by
    rw [segmentRoute_shape, List.getLast?_append_of_ne_nil _ (by simp)]
    rfl
  rcases List.append_eq_append_iff.mp h with ⟨a', h1, h2⟩ | ⟨c', h1, h2⟩
  · rcases List.append_eq_append_iff.mp h2 with ⟨a₂, ha1, ha2⟩ | ⟨c₂, hc1, hc2⟩
    · exfalso
      have hq : '"' ∈ segmentRoute lessonId := by
        rw [h1, ha1, patternURI]
        simp
      exact segmentRoute_noQuote hid '"' hq rfl
    · rcases prefix_of_pattern hc1 with ⟨rfl, rfl⟩ | ⟨rfl, rfl⟩ | ⟨rfl, rfl⟩ |
        ⟨rfl, rfl⟩ | ⟨rfl, rfl⟩ | ⟨rfl, rfl⟩
      · refine ⟨[], ?_, ?_⟩
        · rw [List.append_nil] at h1
          rw [← h1, List.append_nil]
        · rw [hc2, List.nil_append]
      · exfalso
        rw [h1, List.getLast?_append_of_ne_nil _ (by simp)] at hlast
        exact absurd hlast (by decide)
      · exfalso
        rw [h1, List.getLast?_append_of_ne_nil _ (by simp)] at hlast
        exact absurd hlast (by decide)
      · exfalso
        rw [h1, List.getLast?_append_of_ne_nil _ (by simp)] at hlast
        exact absurd hlast (by decide)
      · exfalso
        rw [h1, List.getLast?_append_of_ne_nil _ (by simp)] at hlast
        exact absurd hlast (by decide)
      · exfalso
        rw [h1, List.getLast?_append_of_ne_nil _ (by decide)] at hlast
        exact absurd hlast (by decide)
  · exact ⟨c', h1, h2⟩

/-- Every `URI="` occurrence inside the extracted leaf filename has a
quote-free tail there: the line's own key reference contains a slash, and the
leaf (the text after the last slash) is slash-free, so the occurrence cannot
be the line's normalized one. -/
theorem segLeaf_tail_noQuote {lessonId l : List Char}
    (hgl : GoodLine (keyRefFor lessonId) l) :
    ∀ u v, segLeaf l = u ++ patternURI ++ v → ∀ c ∈ v, c ≠ '"' := by
  intro u v hsl c hc
  obtain ⟨p, s, hdec, hws⟩ := segLeaf_decomp l
  have hl : l = (p ++ u) ++ patternURI ++ (v ++ s) := by
    rw [hdec, hsl]
    simp [List.append_assoc]
  rcases hgl (p ++ u) (v ++ s) hl with ⟨w, hw⟩ | hq
  · exfalso
    have hslash : '/' ∈ v ++ s := by
      rw [hw]
      exact List.mem_append.mpr (Or.inl (slash_mem_keyRefFor lessonId))
    rcases List.mem_append.mp hslash with hv | hs
    · have : '/' ∈ segLeaf l := by
        rw [hsl]
        simp [hv]
      exact segLeaf_noSlash l '/' this rfl
    · have := hws '/' hs
      exact absurd this (by decide)
  · exact hq c (List.mem_append.mpr (Or.inl hc))

end ItsLab

namespace ItsLab

/-- The line carries a `URI="` occurrence with a quote-free tail (an
occurrence the substitution leaves open). -/
def openTailURI (l : List Char) : Prop :=
  ∃ u v, l = u ++ patternURI ++ v ∧ ∀ c ∈ v, c ≠ '"'

theorem goodLine_patchSegmentLine {lessonId l : List Char}
    (hid : saneLessonId lessonId)
    (hgl : GoodLine (keyRefFor lessonId) l) :
    GoodLine (keyRefFor lessonId) (patchSegmentLine lessonId l) := by
  rw [patchSegmentLine_eq]
  by_cases hcond : jsTrim l ≠ [] ∧ (jsTrim l).head? ≠ some '#'
  · rw [if_pos hcond]
    intro u v hv
    right
    rw [List.append_assoc] at hv
    obtain ⟨u', _, hf⟩ := occurrence_in_segmentRoute_append hid hv.symm
    exact segLeaf_tail_noQuote hgl u' v (by rw [hf, List.append_assoc])
  · rw [if_neg hcond]
    exact hgl

theorem openTail_patchSegmentLine {lessonId l : List Char}
    (hid : saneLessonId lessonId)
    (h : openTailURI (patchSegmentLine lessonId l)) : openTailURI l := by
  rw [patchSegmentLine_eq] at h
  by_cases hcond : jsTrim l ≠ [] ∧ (jsTrim l).head? ≠ some '#'
  · rw [if_pos hcond] at h
    obtain ⟨u, v, hv, hq⟩ := h
    rw [List.append_assoc] at hv
    obtain ⟨u', _, hf⟩ := occurrence_in_segmentRoute_append hid hv.symm
    obtain ⟨p, s, hdec, hws⟩ := segLeaf_decomp l
    refine ⟨p ++ u', v ++ s, ?_, ?_⟩
    · rw [hdec, hf]
      simp [List.append_assoc]
    · intro c hc
      rcases List.mem_append.mp hc with h' | h'
      · exact hq c h'
      · intro hcq
        have := hws c h'
        rw [hcq] at this
        exact absurd this (by decide)
  · rw [if_neg hcond] at h
    exact h

theorem noQuote_patchSegmentLine {lessonId l : List Char}
    (hid : saneLessonId lessonId) (h : ∀ c ∈ l, c ≠ '"') :
    ∀ c ∈ patchSegmentLine lessonId l, c ≠ '"' := by
  rw [patchSegmentLine_eq]
  by_cases hcond : jsTrim l ≠ [] ∧ (jsTrim l).head? ≠ some '#'
  · rw [if_pos hcond]
    intro c hc
    rcases List.mem_append.mp hc with h' | h'
    · exact segmentRoute_noQuote hid c h'
    · exact h c (mem_segLeaf h')
  · rw [if_neg hcond]
    exact h

theorem patchSegmentLine_no_break {lessonId l : List Char}
    (hid : saneLessonId lessonId) (h : ∀ c ∈ l, c ≠ '\n' ∧ c ≠ '\r') :
    ∀ c ∈ patchSegmentLine lessonId l, c ≠ '\n' ∧ c ≠ '\r' := by
  rw [patchSegmentLine_eq]
  by_cases hcond : jsTrim l ≠ [] ∧ (jsTrim l).head? ≠ some '#'
  · rw [if_pos hcond]
    intro c hc
    rcases List.mem_append.mp hc with h' | h'
    · exact segmentRoute_no_break hid c h'
    · exact h c (mem_segLeaf h')
  · rw [if_neg hcond]
    exact h

theorem dropWhile_ws_segmentRoute_append (lessonId f : List Char) :
    (segmentRoute lessonId ++ f).dropWhile isJsWhitespace =
      segmentRoute lessonId ++ f := by
  show (('s' :: ('e' :: 'g' :: 'm' :: 'e' :: 'n' :: 't' :: '/' ::
    (lessonId ++ ['/']))) ++ f).dropWhile isJsWhitespace = _
  rw [List.cons_append, List.dropWhile_cons, if_neg (by decide)]
  rfl

theorem dropWhile_ws_reverse_segmentRoute_append (lessonId l : List Char) :
    (segmentRoute lessonId ++ segLeaf l).reverse.dropWhile isJsWhitespace =
      (segmentRoute lessonId ++ segLeaf l).reverse := by
  rw [List.reverse_append]
  rcases hf : (segLeaf l).reverse with _ | ⟨d, ds⟩
  · rw [List.nil_append, segmentRoute_shape, List.reverse_append]
    show (('/' :: _).dropWhile isJsWhitespace) = _
    rw [List.dropWhile_cons, if_neg (by decide)]
    rfl
  · have htr : (segLeaf l).reverse.dropWhile isJsWhitespace =
        (segLeaf l).reverse := jsTrim_reverse_dropWhile _
    rw [hf] at htr
    exact dropWhile_append_self htr _

theorem jsTrim_segmentRoute_segLeaf (lessonId l : List Char) :
    jsTrim (segmentRoute lessonId ++ segLeaf l) =
      segmentRoute lessonId ++ segLeaf l := by
  rw [jsTrim, dropWhile_ws_segmentRoute_append,
    dropWhile_ws_reverse_segmentRoute_append, List.reverse_reverse]

theorem segLeaf_segmentRoute (lessonId l : List Char) :
    segLeaf (segmentRoute lessonId ++ segLeaf l) = segLeaf l := by
  show jsTrim (lastSlashComponent
    (jsTrim (segmentRoute lessonId ++ segLeaf l))) = segLeaf l
  rw [jsTrim_segmentRoute_segLeaf]
  have hsp : segmentRoute lessonId ++ segLeaf l =
      ('s' :: 'e' :: 'g' :: 'm' :: 'e' :: 'n' :: 't' :: '/' :: lessonId) ++
        '/' :: segLeaf l := by
    rw [segmentRoute_shape]
    simp
  rw [hsp, lastSlashComponent_append (segLeaf_noSlash l)]
  exact jsTrim_idem _

/-- The segment-line rewrite is idempotent: a rewritten line starts with the
non-blank, non-directive text `segment/`, its leaf filename is exactly the
text after the final slash of the `segment/<id>/` head, and that filename is
already trimmed. -/
theorem patchSegmentLine_idem (lessonId l : List Char) :
    patchSegmentLine lessonId (patchSegmentLine lessonId l) =
      patchSegmentLine lessonId l := by
  rw [patchSegmentLine_eq lessonId l]
  by_cases hcond : jsTrim l ≠ [] ∧ (jsTrim l).head? ≠ some '#'
  · rw [if_pos hcond]
    have hne : segmentRoute lessonId ++ segLeaf l ≠ [] := by
      simp [segmentRoute]
    have hhd : (segmentRoute lessonId ++ segLeaf l).head? ≠ some '#' := by
      have h's : (segmentRoute lessonId ++ segLeaf l).head? = some 's' := rfl
      rw [h's]
      simp
    rw [patchSegmentLine_eq, jsTrim_segmentRoute_segLeaf,
      if_pos ⟨hne, hhd⟩, segLeaf_segmentRoute]
  · rw [if_neg hcond, patchSegmentLine_eq, if_neg hcond]

end ItsLab

namespace ItsLab

/-- The whole-text goodness of a list of lines: each line is good, and a line
with an open (unclosed) `URI="` occurrence is followed only by quote-free
lines, so that re-joining with newlines cannot close the occurrence. -/
def chainOK (k : List Char) : List (List Char) → Prop
  | [] => True
  | l :: ls => GoodLine k l ∧
      (openTailURI l → ∀ m ∈ ls, ∀ c ∈ m, c ≠ '"') ∧ chainOK k ls

theorem goodLine_nil (k : List Char) : GoodLine k [] := by
  intro u v h
  exfalso
  rw [patternURI] at h
  simp at h

theorem mem_joinLF_or :
    ∀ lines (c : Char), c ∈ joinLF lines →
      c = '\n' ∨ ∃ m ∈ lines, c ∈ m := by
  intro lines
  induction lines with
  | nil =>
      intro c hc
      simp [joinLF] at hc
  | cons l ls ih =>
      intro c hc
      cases ls with
      | nil =>
          exact Or.inr ⟨l, by simp, hc⟩
      | cons l₂ ls₂ =>
          rw [joinLF_cons_cons] at hc
          rcases List.mem_append.mp hc with h | h
          · exact Or.inr ⟨l, by simp, h⟩
          · rcases List.mem_cons.mp h with rfl | h'
            · exact Or.inl rfl
            · rcases ih c h' with rfl | ⟨m, hm, hcm⟩
              · exact Or.inl rfl
              · exact Or.inr ⟨m, by simp [hm], hcm⟩

theorem mem_joinLF_of_mem {lines : List (List Char)} {m : List Char}
    {c : Char} (hm : m ∈ lines) (hc : c ∈ m) : c ∈ joinLF lines := by
  induction lines with
  | nil => simp at hm
  | cons l ls ih =>
      cases ls with
      | nil =>
          rcases List.mem_cons.mp hm with rfl | h'
          · exact hc
          · simp at h'
      | cons l₂ ls₂ =>
          rw [joinLF_cons_cons]
          rcases List.mem_cons.mp hm with rfl | h'
          · exact List.mem_append.mpr (Or.inl hc)
          · exact List.mem_append.mpr (Or.inr
              (List.mem_cons_of_mem '\n' (ih h')))

theorem goodLine_joinLF (k : List Char) :
    ∀ lines, chainOK k lines → GoodLine k (joinLF lines) := by
  intro lines
  induction lines with
  | nil => intro _; exact goodLine_nil k
  | cons l ls ih =>
      intro hch
      cases ls with
      | nil => exact hch.1
      | cons l₂ ls₂ =>
          obtain ⟨hgl, hopen, hch'⟩ := hch
          have hJ := ih hch'
          intro u v hv
          rw [joinLF_cons_cons, List.append_assoc] at hv
          rcases List.append_eq_append_iff.mp hv.symm with ⟨a', h1, h2⟩ |
            ⟨c', h1, h2⟩
          · rcases List.append_eq_append_iff.mp h2 with ⟨x, hx1, hx2⟩ |
              ⟨y, hy1, hy2⟩
            · have hlx : l = (u ++ patternURI) ++ x := by
                rw [h1, hx1, List.append_assoc]
              rcases hgl u x hlx with ⟨w, hw⟩ | hq
              · left
                exact ⟨w ++ '\n' :: joinLF (l₂ :: ls₂), by
                  rw [hx2, hw]; simp⟩
              · right
                have hql : ∀ m ∈ l₂ :: ls₂, ∀ c ∈ m, c ≠ '"' :=
                  hopen ⟨u, x, hlx, hq⟩
                intro c hc
                rw [hx2] at hc
                rcases List.mem_append.mp hc with h' | h'
                · exact hq c h'
                · rcases List.mem_cons.mp h' with rfl | h''
                  · decide
                  · rcases mem_joinLF_or (l₂ :: ls₂) c h'' with rfl |
                      ⟨m, hm, hcm⟩
                    · decide
                    · exact hql m hm c hcm
            · rcases prefix_of_pattern hy1 with ⟨rfl, rfl⟩ | ⟨rfl, rfl⟩ |
                ⟨rfl, rfl⟩ | ⟨rfl, rfl⟩ | ⟨rfl, rfl⟩ | ⟨rfl, rfl⟩
              · exfalso
                rw [patternURI] at hy2
                injection hy2 with hx _
                exact absurd hx (by decide)
              · exfalso
                injection hy2 with hx _
                exact absurd hx (by decide)
              · exfalso
                injection hy2 with hx _
                exact absurd hx (by decide)
              · exfalso
                injection hy2 with hx _
                exact absurd hx (by decide)
              · exfalso
                injection hy2 with hx _
                exact absurd hx (by decide)
              · right
                have hopl : openTailURI l := ⟨u, [], by rw [h1]; simp, by simp⟩
                have hql := hopen hopl
                rw [List.nil_append] at hy2
                intro c hc
                rw [← hy2] at hc
                rcases List.mem_cons.mp hc with rfl | h''
                · decide
                · rcases mem_joinLF_or (l₂ :: ls₂) c h'' with rfl |
                    ⟨m, hm, hcm⟩
                  · decide
                  · exact hql m hm c hcm
          · cases c' with
            | nil =>
                exfalso
                rw [List.nil_append, patternURI] at h2
                injection h2 with hx _
                exact absurd hx (by decide)
            | cons d c'' =>
                rw [List.cons_append] at h2
                injection h2 with _ hJ'
                exact hJ c'' v (by rw [hJ', List.append_assoc])

theorem chainOK_of_joinLF (k : List Char) (hkn : ∀ c ∈ k, c ≠ '\n') :
    ∀ lines, GoodLine k (joinLF lines) → chainOK k lines := by
  intro lines
  induction lines with
  | nil => intro _; exact trivial
  | cons l ls ih =>
      intro hg
      cases ls with
      | nil =>
          refine ⟨hg, ?_, trivial⟩
          intro _ m hm
          simp at hm
      | cons l₂ ls₂ =>
          have hgJ : GoodLine k (l ++ '\n' :: joinLF (l₂ :: ls₂)) := hg
          refine ⟨?_, ?_, ?_⟩
          · intro u v hvl
            have htot : l ++ '\n' :: joinLF (l₂ :: ls₂) =
                (u ++ patternURI) ++ (v ++ '\n' :: joinLF (l₂ :: ls₂)) := by
              rw [hvl]
              simp [List.append_assoc]
            rcases hgJ u (v ++ '\n' :: joinLF (l₂ :: ls₂)) htot with
              ⟨w, hw⟩ | hq
            · have hw' : v ++ ('\n' :: joinLF (l₂ :: ls₂)) =
                  (k ++ ['"']) ++ w := by
                rw [hw]
                simp
              rcases List.append_eq_append_iff.mp hw' with ⟨x, hx1, hx2⟩ |
                ⟨y, hy1, hy2⟩
              · cases x with
                | nil =>
                    left
                    rw [List.append_nil] at hx1
                    exact ⟨[], hx1.symm⟩
                | cons d x' =>
                    exfalso
                    rw [List.cons_append] at hx2
                    injection hx2 with hd _
                    have hmem : d ∈ k ++ ['"'] := by
                      rw [hx1]
                      simp
                    rcases List.mem_append.mp hmem with h' | h'
                    · exact hkn d h' hd.symm
                    · rw [List.mem_singleton] at h'
                      rw [h'] at hd
                      exact absurd hd (by decide)
              · left
                exact ⟨y, by rw [hy1]; simp⟩
            · right
              intro c hc
              exact hq c (List.mem_append.mpr (Or.inl hc))
          · intro hop m hm c hcm
            obtain ⟨u, x, hlx, hxq⟩ := hop
            have htot : l ++ '\n' :: joinLF (l₂ :: ls₂) =
                (u ++ patternURI) ++ (x ++ '\n' :: joinLF (l₂ :: ls₂)) := by
              rw [hlx]
              simp [List.append_assoc]
            rcases hgJ u (x ++ '\n' :: joinLF (l₂ :: ls₂)) htot with
              ⟨w, hw⟩ | hq
            · exfalso
              have hw' : x ++ ('\n' :: joinLF (l₂ :: ls₂)) =
                  (k ++ ['"']) ++ w := by
                rw [hw]
                simp
              rcases List.append_eq_append_iff.mp hw' with ⟨z, hz1, hz2⟩ |
                ⟨y, hy1, hy2⟩
              · cases z with
                | nil =>
                    rw [List.append_nil] at hz1
                    exact hxq '"' (by rw [← hz1]; simp) rfl
                | cons d z' =>
                    rw [List.cons_append] at hz2
                    injection hz2 with hd _
                    have hmem : d ∈ k ++ ['"'] := by
                      rw [hz1]
                      simp
                    rcases List.mem_append.mp hmem with h' | h'
                    · exact hkn d h' hd.symm
                    · rw [List.mem_singleton] at h'
                      rw [h'] at hd
                      exact absurd hd (by decide)
              · exact hxq '"' (by rw [hy1]; simp) rfl
            · exact hq c (List.mem_append.mpr (Or.inr
                (List.mem_cons_of_mem '\n' (mem_joinLF_of_mem hm hcm))))
          · refine ih ?_
            have h2 : GoodLine k ((l ++ ['\n']) ++ joinLF (l₂ :: ls₂)) := by
              rw [List.append_assoc]
              exact hgJ
            exact GoodLine_suffix h2

theorem chainOK_map_patchSegmentLine {lessonId : List Char}
    (hid : saneLessonId lessonId) :
    ∀ lines, chainOK (keyRefFor lessonId) lines →
      chainOK (keyRefFor lessonId) (lines.map (patchSegmentLine lessonId)) := by
  intro lines
  induction lines with
  | nil => intro h; exact h
  | cons l ls ih =>
      intro h
      obtain ⟨hgl, hop, hch⟩ := h
      refine ⟨goodLine_patchSegmentLine hid hgl, ?_, ih hch⟩
      intro hopm m hm c hcm
      obtain ⟨m₀, hm₀, rfl⟩ := List.mem_map.mp hm
      have hql := hop (openTail_patchSegmentLine hid hopm)
      exact noQuote_patchSegmentLine hid (hql m₀ hm₀) c hcm

end ItsLab

namespace ItsLab

theorem splitLinesFuel_ne_nil : ∀ f l, splitLinesFuel f l ≠ [] := by
  intro f
  induction f with
  | zero =>
      intro l
      simp [splitLinesFuel]
  | succ f ih =>
      intro l
      cases l with
      | nil => simp [splitLinesFuel]
      | cons c cs =>
          rw [splitLinesFuel_succ]
          by_cases h1 : c = '\n'
          · rw [if_pos h1]
            simp
          · rw [if_neg h1]
            by_cases h2 : c = '\r' ∧ cs.head? = some '\n'
            · rw [if_pos h2]
              simp
            · rw [if_neg h2]
              cases hL : splitLinesFuel f cs with
              | nil => exact absurd hL (ih cs)
              | cons x xs =>
                  simp [consFirstS]

theorem splitManifestLines_ne_nil (l : List Char) :
    splitManifestLines l ≠ [] := splitLinesFuel_ne_nil _ _

theorem joinLF_consFirstS (c : Char) (L : List (List Char)) (h : L ≠ []) :
    joinLF (consFirstS c L) = c :: joinLF L := by
  cases L with
  | nil => exact absurd rfl h
  | cons x xs =>
      cases xs with
      | nil => rfl
      | cons y ys => rfl

theorem joinLF_splitManifestLines {l : List Char}
    (h : ∀ c ∈ l, c ≠ '\r') : joinLF (splitManifestLines l) = l := by
  induction l with
  | nil => rfl
  | cons c cs ih =>
      by_cases h1 : c = '\n'
      · subst h1
        rw [splitManifestLines_newline]
        cases hL : splitManifestLines cs with
        | nil => exact absurd hL (splitManifestLines_ne_nil cs)
        | cons x xs =>
            rw [joinLF_cons_cons, List.nil_append, ← hL,
              ih (fun d hd => h d (by simp [hd]))]
      · have h2 : c ≠ '\r' := h c (by simp)
        rw [splitManifestLines_other cs h1 h2,
          joinLF_consFirstS _ _ (splitManifestLines_ne_nil cs),
          ih (fun d hd => h d (by simp [hd]))]

theorem mem_splitManifestLines {l : List Char}
    (hcr : ∀ c ∈ l, c ≠ '\r') :
    ∀ m ∈ splitManifestLines l, ∀ c ∈ m, c ∈ l ∧ c ≠ '\n' := by
  induction l with
  | nil =>
      intro m hm c hc
      have : m = [] := by
        simpa [splitManifestLines, splitLinesFuel] using hm
      subst this
      simp at hc
  | cons d ds ih =>
      intro m hm c hc
      by_cases h1 : d = '\n'
      · subst h1
        rw [splitManifestLines_newline] at hm
        rcases List.mem_cons.mp hm with rfl | hm'
        · simp at hc
        · have := ih (fun x hx => hcr x (by simp [hx])) m hm' c hc
          exact ⟨by simp [this.1], this.2⟩
      · have h2 : d ≠ '\r' := hcr d (by simp)
        rw [splitManifestLines_other ds h1 h2] at hm
        cases hL : splitManifestLines ds with
        | nil => exact absurd hL (splitManifestLines_ne_nil ds)
        | cons x xs =>
            rw [hL] at hm
            rcases List.mem_cons.mp hm with rfl | hm'
            · rcases List.mem_cons.mp hc with rfl | hcx
              · exact ⟨by simp, h1⟩
              · have hx : x ∈ splitManifestLines ds := by
                  rw [hL]
                  simp
                have := ih (fun y hy => hcr y (by simp [hy])) x hx c hcx
                exact ⟨by simp [this.1], this.2⟩
            · have hmx : m ∈ splitManifestLines ds := by
                rw [hL]
                simp [hm']
              have := ih (fun y hy => hcr y (by simp [hy])) m hmx c hc
              exact ⟨by simp [this.1], this.2⟩

end ItsLab

namespace ItsLab

/-- The substitution never changes the first five characters' worth of any
prefix: up to the first match both texts agree, and a match keeps its own
five-character head. -/
theorem uriReplaceAll_take (k : List Char) :
    ∀ n l j, l.length ≤ n → j ≤ 5 →
      (uriReplaceAll k l).take j = l.take j := by
  intro n
  induction n with
  | zero =>
      intro l j hl _
      have : l = [] := List.length_eq_zero.mp (Nat.le_zero.mp hl)
      subst this
      rfl
  | succ n ih =>
      intro l j hl hj
      cases l with
      | nil => rfl
      | cons c cs =>
          by_cases hm : matchesKeyURI (c :: cs) = true
          · rcases hq : splitAtQuote ((c :: cs).drop 5) with _ | ⟨a, b⟩
            · rw [uriReplaceAll_match_none hm hq]
            · rw [uriReplaceAll_match_some hm hq]
              obtain ⟨r, hr⟩ := matchesKeyURI_iff_pattern.mp hm
              have hL : ('U' :: 'R' :: 'I' :: '=' :: '"' ::
                  (k ++ '"' :: uriReplaceAll k b)) =
                  patternURI ++ (k ++ '"' :: uriReplaceAll k b) := rfl
              rw [hL, hr,
                List.take_append_of_le_length (by simpa [patternURI] using hj),
                List.take_append_of_le_length (by simpa [patternURI] using hj)]
          · rw [uriReplaceAll_not_match hm]
            cases j with
            | zero => rfl
            | succ j' =>
                rw [List.take_succ_cons, List.take_succ_cons,
                  ih cs j' (by simp only [List.length_cons] at hl; omega)
                    (by omega)]

/-- The central pass-one invariant: the output of the global key-URI
substitution is patched-shaped — every `URI="` occurrence in it is either
normalized to the key reference or has a quote-free tail. -/
theorem goodLine_uriReplaceAll {k : List Char} (hk : ∀ c ∈ k, c ≠ '"')
    (hke : ∀ m : List Char, k ≠ m ++ ['U', 'R', 'I', '=']) :
    ∀ n l, l.length ≤ n → GoodLine k (uriReplaceAll k l) := by
  intro n
  induction n with
  | zero =>
      intro l hl
      have : l = [] := List.length_eq_zero.mp (Nat.le_zero.mp hl)
      subst this
      exact goodLine_nil k
  | succ n ih =>
      intro l hl
      cases l with
      | nil => exact goodLine_nil k
      | cons c cs =>
          by_cases hm : matchesKeyURI (c :: cs) = true
          · rcases hq : splitAtQuote ((c :: cs).drop 5) with _ | ⟨a, b⟩
            · rw [uriReplaceAll_match_none hm hq]
              obtain ⟨r, hr⟩ := matchesKeyURI_iff_pattern.mp hm
              have hdr : (c :: cs).drop 5 = r := by rw [hr]; rfl
              rw [hdr] at hq
              have hrq : ∀ x ∈ r, x ≠ '"' := (splitAtQuote_none_iff r).mp hq
              intro u v hv
              rw [hr] at hv
              have hv' : u ++ (patternURI ++ v) = patternURI ++ r := by
                rw [← List.append_assoc]
                exact hv.symm
              rcases List.append_eq_append_iff.mp hv' with ⟨a₂, h1, h2⟩ |
                ⟨c₂, h1, h2⟩
              · rcases prefix_of_pattern h1 with ⟨rfl, rfl⟩ | ⟨rfl, rfl⟩ |
                  ⟨rfl, rfl⟩ | ⟨rfl, rfl⟩ | ⟨rfl, rfl⟩ | ⟨rfl, rfl⟩
                · right
                  have hvr := List.append_cancel_left h2
                  exact fun x hx => hrq x (hvr ▸ hx)
                · exfalso
                  rw [patternURI] at h2
                  injection h2 with hx _
                  exact absurd hx (by decide)
                · exfalso
                  rw [patternURI] at h2
                  injection h2 with hx _
                  exact absurd hx (by decide)
                · exfalso
                  rw [patternURI] at h2
                  injection h2 with hx _
                  exact absurd hx (by decide)
                · exfalso
                  rw [patternURI] at h2
                  injection h2 with hx _
                  exact absurd hx (by decide)
                · exfalso
                  rw [List.nil_append] at h2
                  exact hrq '"' (by rw [← h2, patternURI]; simp) rfl
              · exfalso
                exact hrq '"' (by rw [h2, patternURI]; simp) rfl
            · rw [uriReplaceAll_match_some hm hq]
              have hblen : b.length ≤ n := by
                have h1 := splitAtQuote_shrinks hq
                have h2 := matchesKeyURI_length hm
                rw [List.length_drop] at h1
                simp only [List.length_cons] at hl h2 h1
                omega
              have hGb := ih b hblen
              intro u v hv
              have hv' : u ++ (patternURI ++ v) =
                  patternURI ++ (k ++ '"' :: uriReplaceAll k b) := by
                rw [← List.append_assoc]
                exact hv.symm
              rcases pattern_overlap hk hke u v (uriReplaceAll k b) hv' with
                ⟨_, hveq⟩ | ⟨u', _, hUb⟩
              · left
                exact ⟨uriReplaceAll k b, hveq⟩
              · exact hGb u' v (by rw [hUb, ← List.append_assoc])
          · rw [uriReplaceAll_not_match hm]
            have hGcs := ih cs (by simp only [List.length_cons] at hl; omega)
            intro u v hv
            cases u with
            | nil =>
                exfalso
                rw [List.nil_append, patternURI] at hv
                injection hv with hc htv
                have hcs4 : cs.take 4 = ['R', 'I', '=', '"'] := by
                  rw [← uriReplaceAll_take k cs.length cs 4 (le_refl _)
                    (by omega), htv]
                  rfl
                apply hm
                simp only [matchesKeyURI, decide_eq_true_eq]
                rw [List.take_succ_cons, hcs4, hc]
            | cons d u' =>
                rw [List.cons_append, List.cons_append] at hv
                injection hv with _ htv
                exact hGcs u' v htv

end ItsLab

namespace ItsLab

/-- C5 (counterexample).  Manifest patching is not idempotent on every
manifest text: on `#x\r\r\n#y` the `\r?\n` split leaves the stray `\r`
inside the first line but the join writes back a bare `\n`, so the first
pass yields `#x\r\n#y` and the second pass — now seeing a `\r\n` pair —
yields `#x\n#y`, a different byte string. -/
theorem patchManifest_not_idempotent :
    patchManifest "L1".data "#x\r\r\n#y".data = "#x\r\n#y".data ∧
    patchManifest "L1".data (patchManifest "L1".data "#x\r\r\n#y".data) =
      "#x\n#y".data ∧
    patchManifest "L1".data (patchManifest "L1".data "#x\r\r\n#y".data) ≠
      patchManifest "L1".data "#x\r\r\n#y".data :=
  ⟨by decide, by decide, by decide⟩

/-- C5 (amended).  The manifest patching function is idempotent on every
carriage-return-free manifest text when the asset identifier contains no
quote, slash, equals sign or whitespace (every UUID does): applying the
gateway's patch transformation to its own output yields byte-identical
output. -/
theorem patchManifest_idempotent (lessonId content : List Char)
    (hid : saneLessonId lessonId) (hcr : ∀ c ∈ content, c ≠ '\r') :
    patchManifest lessonId (patchManifest lessonId content) =
      patchManifest lessonId content := by
  set k := keyRefFor lessonId with hkdef
  have hk : ∀ c ∈ k, c ≠ '"' := keyRefFor_noQuote hid
  have hkbr := keyRefFor_no_break hid
  have hke := keyRefFor_not_URIeq_suffix hid
  have hTgood : GoodLine k (uriReplaceAll k content) :=
    goodLine_uriReplaceAll hk hke content.length content (le_refl _)
  have hTcr : ∀ c ∈ uriReplaceAll k content, c ≠ '\r' := by
    intro c hc
    rcases mem_uriReplaceAll k content.length content (le_refl _) c hc with
      h | h | h
    · exact hcr c h
    · exact (hkbr c h).2
    · fin_cases h <;> decide
  set lines := splitManifestLines (uriReplaceAll k content) with hlines
  have hl1 : ∀ m ∈ lines, ∀ c ∈ m, c ≠ '\n' ∧ c ≠ '\r' := by
    intro m hm c hc
    have := mem_splitManifestLines hTcr m hm c hc
    exact ⟨this.2, hTcr c this.1⟩
  have hTjoin : joinLF lines = uriReplaceAll k content :=
    joinLF_splitManifestLines hTcr
  have hchain1 : chainOK k lines :=
    chainOK_of_joinLF k (fun c hc => (hkbr c hc).1) lines
      (by rw [hTjoin]; exact hTgood)
  set plines := lines.map (patchSegmentLine lessonId) with hplines
  have hchain2 : chainOK k plines :=
    chainOK_map_patchSegmentLine hid lines hchain1
  have hpl : ∀ m ∈ plines, ∀ c ∈ m, c ≠ '\n' ∧ c ≠ '\r' := by
    intro m hm
    obtain ⟨m₀, hm₀, rfl⟩ := List.mem_map.mp hm
    exact patchSegmentLine_no_break hid (hl1 m₀ hm₀)
  have hout : patchManifest lessonId content = joinLF plines := rfl
  have hUout : uriReplaceAll k (joinLF plines) = joinLF plines :=
    uriReplaceAll_fixed_of_good k hk (joinLF plines).length (joinLF plines)
      (le_refl _) (goodLine_joinLF k plines hchain2)
  have hplne : plines ≠ [] := by
    rw [hplines]
    intro h
    rw [List.map_eq_nil_iff] at h
    rw [hlines] at h
    exact splitManifestLines_ne_nil _ h
  have hsplit : splitManifestLines (joinLF plines) = plines :=
    splitManifestLines_joinLF plines hplne hpl
  have hfix : plines.map (patchSegmentLine lessonId) = plines :=
    map_eq_self_of _ plines (fun m hm => by
      obtain ⟨m₀, hm₀, rfl⟩ := List.mem_map.mp hm
      exact patchSegmentLine_idem lessonId m₀)
  rw [hout]
  show joinLF ((splitManifestLines (uriReplaceAll (keyRefFor lessonId)
    (joinLF plines))).map (patchSegmentLine lessonId)) = joinLF plines
  rw [← hkdef, hUout, hsplit, hfix]

/-- Witness for `patchManifest_idempotent` on a concrete encoder-shaped
playlist with asset id `L1`. -/
theorem patchManifest_idempotent_witness :
    saneLessonId "L1".data ∧
    (∀ c ∈ ("#EXTM3U\n#EXT-X-KEY:METHOD=AES-128,URI=\"enc.key\",IV=0x1234\nsegment_000.ts\n#EXT-X-ENDLIST".data),
      c ≠ '\r') ∧
    patchManifest "L1".data (patchManifest "L1".data
      "#EXTM3U\n#EXT-X-KEY:METHOD=AES-128,URI=\"enc.key\",IV=0x1234\nsegment_000.ts\n#EXT-X-ENDLIST".data) =
      patchManifest "L1".data
        "#EXTM3U\n#EXT-X-KEY:METHOD=AES-128,URI=\"enc.key\",IV=0x1234\nsegment_000.ts\n#EXT-X-ENDLIST".data :=
  ⟨by unfold saneLessonId; decide, by decide,
    patchManifest_idempotent "L1".data
      "#EXTM3U\n#EXT-X-KEY:METHOD=AES-128,URI=\"enc.key\",IV=0x1234\nsegment_000.ts\n#EXT-X-ENDLIST".data
      (by unfold saneLessonId; decide) (by decide)⟩

end ItsLab
